import Mathlib

/-!
Verification of rewrite patterns from an ML-compiler rewrite layer.

The development shallowly embeds:
* the constant case of the loop maximum-trip-count narrower
  (`LoopOpRewriteMaxTripCountPattern` in `src/Dialect/ONNX/Rewrite.cpp`),
  including a faithful model of the IEEE-754 binary64 arithmetic the C++
  code uses for the trip-count division;
* the whole match/rewrite structure of that pattern over a small IR model;
* the ZLow peephole patterns (`UnstickRemovalPattern`, `StickRemovalPattern`,
  `UnstickStickRemovalPattern`, `StickViewUnstickRemovalPattern`) over an
  explicit operation-graph model
  (`src/Accelerators/NNPA/Transform/ZLow/ZLowRewrite.cpp`);
* the affine-map permutation composition used by
  `UnstickLoadStoreStickRemovalPattern` for the NCHW layout;
* the async-region deallocation inserter
  (`InsertDeallocForAsyncExecRegionPattern`).
-/

/- ===================================================================
   Part 1.  IEEE-754 binary64 model and the trip-count constant case.

   The C++ code computes
     int64_t derivedTripCount =
         ceil((1.0 * (upperBound - lowerBound)) / (1.0 * step));
   i.e. the int64 difference is converted to double, the step is
   converted to double, the doubles are divided (IEEE round to nearest,
   ties to even), and the mathematical ceiling of the resulting double
   is taken.  `fl` below models the value of the binary64 double nearest
   to a rational, ignoring overflow and subnormals, which is valid for
   the magnitudes arising in all statements of this development.
   =================================================================== -/

/-- Round a rational to the nearest integer, ties to even
(the IEEE-754 default rounding of a significand). -/
def roundNearestEven (q : ℚ) : ℤ :=
  if q - ⌊q⌋ < 1/2 then ⌊q⌋
  else if 1/2 < q - ⌊q⌋ then ⌊q⌋ + 1
  else if 2 ∣ ⌊q⌋ then ⌊q⌋ else ⌊q⌋ + 1

/-- Value of the IEEE-754 binary64 number nearest to a positive rational:
the significand is `q` scaled into `[2^52, 2^53)` and rounded to an
integer, ties to even.  Overflow and subnormal behaviour are not modelled;
all inputs considered in this development are in the normal range. -/
def flPos (q : ℚ) : ℚ :=
  ((roundNearestEven (q * 2 ^ ((52 : ℤ) - Int.log 2 q)) : ℚ)) *
    2 ^ (Int.log 2 q - 52)

/-- Value of the binary64 double nearest to a rational. -/
def fl (q : ℚ) : ℚ :=
  if 0 < q then flPos q else if q < 0 then -flPos (-q) else 0

/-- Two's-complement wraparound of 64-bit signed subtraction.  C++ signed
overflow is undefined behaviour; wraparound is the conventional model. -/
def wrap64 (x : ℤ) : ℤ := (x + 2 ^ 63) % 2 ^ 64 - 2 ^ 63

/-- The trip count computed by the constant case of
`LoopOpRewriteMaxTripCountPattern::matchOp`
(`Rewrite.cpp`): `ceil((1.0 * (upperBound - lowerBound)) / (1.0 * step))`,
with the int64 subtraction, the two int-to-double conversions, the
correctly rounded double division and the exact ceiling. -/
def derivedTripCountFP (lowerBound upperBound step : ℤ) : ℤ :=
  ⌈fl (fl ((wrap64 (upperBound - lowerBound) : ℚ)) / fl ((step : ℚ)))⌉

/-- Constant case of `LoopOpRewriteMaxTripCountPattern::matchOp`
(`Rewrite.cpp` lines 729-753): decline when `step <= 0` or
`upperBound <= lowerBound`; otherwise derive the trip count; decline when
`maxTripCount <= derivedTripCount`; otherwise succeed with the derived
trip count as the new constant operand. -/
def tripCountConstCase (lowerBound upperBound step maxTripCount : ℤ) :
    Option ℤ :=
  if step ≤ 0 ∨ upperBound ≤ lowerBound then none
  else
    let derivedTripCount := derivedTripCountFP lowerBound upperBound step
    if maxTripCount ≤ derivedTripCount then none
    else some derivedTripCount

/-! Basic properties of `roundNearestEven`. -/

theorem roundNearestEven_intCast (n : ℤ) : roundNearestEven (n : ℚ) = n := by
  simp [roundNearestEven]

theorem roundNearestEven_le_ceil (q : ℚ) : roundNearestEven q ≤ ⌈q⌉ := by
  unfold roundNearestEven
  have hfl : (⌊q⌋ : ℚ) ≤ q := Int.floor_le q
  have hc : ⌊q⌋ ≤ ⌈q⌉ := Int.floor_le_ceil q
  split_ifs with h1 h2 h3
  · exact hc
  · have hlt : ⌊q⌋ < ⌈q⌉ := Int.lt_ceil.mpr (by linarith)
    omega
  · exact hc
  · have h2' : (1:ℚ)/2 ≤ q - ⌊q⌋ := by linarith
    have hlt : ⌊q⌋ < ⌈q⌉ := Int.lt_ceil.mpr (by linarith)
    omega

theorem roundNearestEven_ge (q : ℚ) : q - 1/2 ≤ (roundNearestEven q : ℚ) := by
  unfold roundNearestEven
  have hfl : (⌊q⌋ : ℚ) ≤ q := Int.floor_le q
  have hfu : q < (⌊q⌋ : ℚ) + 1 := Int.lt_floor_add_one q
  split_ifs with h1 h2 h3
  · linarith
  · push_cast
    linarith
  · linarith
  · push_cast
    linarith

theorem roundNearestEven_le (q : ℚ) (k : ℤ) (h : q ≤ (k : ℚ)) :
    roundNearestEven q ≤ k := by
  have h1 : roundNearestEven q ≤ ⌈q⌉ := roundNearestEven_le_ceil q
  have h2 : ⌈q⌉ ≤ k := Int.ceil_le.mpr h
  omega

theorem roundNearestEven_gt (q : ℚ) (k : ℤ) (h : (k : ℚ) + 1/2 < q) :
    k < roundNearestEven q := by
  have h1 : q - 1/2 ≤ (roundNearestEven q : ℚ) := roundNearestEven_ge q
  have h2 : (k : ℚ) < (roundNearestEven q : ℚ) := by linarith
  exact_mod_cast h2

/-! Exact representability of integers up to `2 ^ 53` in binary64. -/

theorem fl_intCast (n : ℤ) (h1 : 1 ≤ n) (h2 : n ≤ 2 ^ 53) :
    fl (n : ℚ) = n := by
  have hq : (0 : ℚ) < (n : ℚ) := by exact_mod_cast h1
  rw [fl, if_pos hq]
  have he0 : 0 ≤ Int.log 2 ((n : ℚ)) := by
    refine (Int.zpow_le_iff_le_log (by norm_num : 1 < 2) hq).mp ?_
    rw [zpow_zero]
    exact_mod_cast h1
  have he53 : Int.log 2 ((n : ℚ)) ≤ 53 := by
    have hlt : (n : ℚ) < (2 : ℚ) ^ (54 : ℤ) := by
      have : ((n : ℚ)) ≤ ((2 ^ 53 : ℤ) : ℚ) := by exact_mod_cast h2
      have h54 : ((2 : ℚ)) ^ ((54 : ℤ)) = ((2 ^ 54 : ℤ) : ℚ) := by
        norm_num
      rw [h54]
      have : ((2 ^ 53 : ℤ) : ℚ) < ((2 ^ 54 : ℤ) : ℚ) := by
        exact_mod_cast (by norm_num : (2 ^ 53 : ℤ) < 2 ^ 54)
      linarith
    have := (Int.lt_zpow_iff_log_lt (by norm_num : 1 < 2) hq).mp hlt
    omega
  rcases lt_or_eq_of_le he53 with he52 | he53'
  · -- exponent at most 52: the scaled significand is an integer
    have he52' : Int.log 2 ((n : ℚ)) ≤ 52 := by omega
    set e := Int.log 2 ((n : ℚ)) with hedef
    have hk : ((52 : ℤ) - e) = (((52 - e).toNat : ℕ) : ℤ) :=
      (Int.toNat_of_nonneg (by omega)).symm
    set k : ℕ := (52 - e).toNat with hkdef
    have hm : (n : ℚ) * 2 ^ ((52 : ℤ) - e) = ((n * 2 ^ k : ℤ) : ℚ) := by
      rw [hk, zpow_natCast]
      push_cast
      ring
    rw [flPos, ← hedef, hm, roundNearestEven_intCast]
    push_cast
    rw [mul_assoc, ← zpow_natCast (2 : ℚ) k, ← zpow_add₀ (by norm_num : (2:ℚ) ≠ 0)]
    rw [← hk]
    norm_num
  · -- exponent 53: the value is exactly 2 ^ 53
    have hge : (2 : ℚ) ^ ((53 : ℤ)) ≤ (n : ℚ) := by
      have := Int.zpow_log_le_self (b := 2) (by norm_num) hq
      rwa [he53'] at this
    have hn53 : n = 2 ^ 53 := by
      have : ((2 ^ 53 : ℤ) : ℚ) ≤ (n : ℚ) := by
        have h53 : ((2 : ℚ)) ^ ((53 : ℤ)) = ((2 ^ 53 : ℤ) : ℚ) := by norm_num
        rwa [h53] at hge
      have := (by exact_mod_cast this : (2 ^ 53 : ℤ) ≤ n)
      omega
    subst hn53
    rw [flPos, he53']
    have hm : ((2 ^ 53 : ℤ) : ℚ) * 2 ^ ((52 : ℤ) - 53) = ((2 ^ 52 : ℤ) : ℚ) := by
      rw [(by norm_num : (52 : ℤ) - 53 = -1), zpow_neg, zpow_one]
      push_cast
      norm_num
    rw [hm, roundNearestEven_intCast]
    push_cast
    norm_num

/-- Helper: product of powers of two. -/
theorem two_zpow_mul (a b : ℤ) : (2:ℚ) ^ a * (2:ℚ) ^ b = 2 ^ (a + b) :=
  (zpow_add₀ (by norm_num : (2:ℚ) ≠ 0) a b).symm

theorem two_zpow_pos (a : ℤ) : (0:ℚ) < 2 ^ a := zpow_pos (by norm_num) a

/-- Correctly rounded double division of integers up to `2 ^ 53` followed by
the exact ceiling agrees with the exact rational ceiling. -/
theorem ceil_fl_div (A S : ℤ) (hA1 : 1 ≤ A) (hA2 : A ≤ 2 ^ 53)
    (hS1 : 1 ≤ S) :
    ⌈fl ((A : ℚ) / (S : ℚ))⌉ = ⌈(A : ℚ) / (S : ℚ)⌉ := by
  have hSq : (0:ℚ) < (S:ℚ) := by exact_mod_cast hS1
  have hAq : (0:ℚ) < (A:ℚ) := by exact_mod_cast hA1
  have hSne : (S:ℚ) ≠ 0 := ne_of_gt hSq
  set q : ℚ := (A:ℚ)/(S:ℚ) with hqdef
  have hq0 : 0 < q := div_pos hAq hSq
  have hqle : q ≤ ((2:ℚ))^((53:ℤ)) := by
    rw [hqdef, div_le_iff hSq]
    have h1 : (A:ℚ) ≤ ((2^53:ℤ):ℚ) := by exact_mod_cast hA2
    have h2 : (1:ℚ) ≤ (S:ℚ) := by exact_mod_cast hS1
    have h3 : ((2^53:ℤ):ℚ) = (2:ℚ)^((53:ℤ)) := by norm_num
    nlinarith [h3 ▸ h1]
  by_cases htop : ((2:ℚ))^((53:ℤ)) ≤ q
  · -- q is exactly 2 ^ 53, an exactly representable integer
    have hq53 : q = ((2^53 : ℤ):ℚ) := by
      have h53 : ((2:ℚ))^((53:ℤ)) = ((2^53:ℤ):ℚ) := by norm_num
      rw [h53] at htop hqle
      linarith
    rw [hq53, fl_intCast _ (by norm_num) (by norm_num)]
  · push_neg at htop
    have he52 : Int.log 2 q ≤ 52 := by
      have := (Int.lt_zpow_iff_log_lt (by norm_num : 1 < 2) hq0).mp htop
      omega
    set e := Int.log 2 q with hedef
    have he1 : (2:ℚ)^e ≤ q := Int.zpow_log_le_self (by norm_num) hq0
    have he2 : q < (2:ℚ)^(e+1) := Int.lt_zpow_succ_log_self (by norm_num) q
    set k := ⌈q⌉ with hkdef
    have hk1 : (k:ℚ) - 1 < q := by
      have := Int.ceil_lt_add_one q
      rw [← hkdef] at this
      linarith
    have hkq : q ≤ (k:ℚ) := Int.le_ceil q
    -- the divisor is at most 2 ^ (53 - e)
    have hS253 : (S:ℚ) * 2^e ≤ (2:ℚ)^((53:ℤ)) := by
      have h1 : (S:ℚ) * (2:ℚ)^e ≤ (A:ℚ) := by
        have := (le_div_iff hSq).mp he1
        linarith
      have h2 : (A:ℚ) ≤ (2:ℚ)^((53:ℤ)) := by
        have h3 : ((2^53:ℤ):ℚ) = (2:ℚ)^((53:ℤ)) := by norm_num
        rw [← h3]
        exact_mod_cast hA2
      linarith
    have hSle : (S:ℚ) ≤ 2^((53:ℤ)-e) := by
      rw [zpow_sub₀ (by norm_num : (2:ℚ) ≠ 0), le_div_iff (two_zpow_pos e)]
      exact hS253
    -- the scaled significand
    set m : ℚ := q * 2 ^ ((52:ℤ) - e) with hmdef
    have hm52 : (2:ℚ)^((52:ℤ)) ≤ m := by
      have := mul_le_mul_of_nonneg_right he1 (le_of_lt (two_zpow_pos (52 - e)))
      rw [two_zpow_mul] at this
      have harith : e + (52 - e) = 52 := by ring
      rw [harith] at this
      exact this
    -- integer grids at the scale of the significand
    have hk52 : ((52 : ℤ) - e) = (((52-e).toNat : ℕ) : ℤ) :=
      (Int.toNat_of_nonneg (by omega)).symm
    set K : ℤ := k * 2 ^ ((52-e).toNat) with hKdef
    set Kp : ℤ := (k-1) * 2 ^ ((52-e).toNat) with hKpdef
    have hpowcast : (2:ℚ)^((52:ℤ)-e) = ((2 ^ ((52-e).toNat) : ℤ) : ℚ) := by
      rw [hk52, zpow_natCast]
      norm_cast
    have hcastK : ((K:ℤ):ℚ) = (k:ℚ) * 2^((52:ℤ)-e) := by
      rw [hKdef, hpowcast]
      push_cast
      ring
    have hcastKp : ((Kp:ℤ):ℚ) = ((k:ℚ)-1) * 2^((52:ℤ)-e) := by
      rw [hKpdef, hpowcast]
      push_cast
      ring
    -- upper bound: fl q ≤ k
    have hmK : m ≤ (K:ℚ) := by
      rw [hcastK, hmdef]
      exact mul_le_mul_of_nonneg_right hkq (le_of_lt (two_zpow_pos _))
    have hrK : roundNearestEven m ≤ K := roundNearestEven_le m K hmK
    have hub : flPos q ≤ (k:ℚ) := by
      rw [flPos, ← hedef, ← hmdef]
      have h1 : ((roundNearestEven m : ℤ):ℚ) ≤ (K:ℚ) := by exact_mod_cast hrK
      have h2 := mul_le_mul_of_nonneg_right h1 (le_of_lt (two_zpow_pos (e - 52)))
      have h3 : (K:ℚ) * 2^(e-52) = (k:ℚ) := by
        rw [hcastK, mul_assoc, two_zpow_mul]
        have harith : (52:ℤ) - e + (e - 52) = 0 := by ring
        rw [harith, zpow_zero, mul_one]
      linarith
    -- lower bound: k - 1 < fl q
    set N : ℤ := A - (k-1) * S with hNdef
    have hN1 : 1 ≤ N := by
      have h1 : ((k:ℚ)-1) * (S:ℚ) < (A:ℚ) := by
        have h0 : ((k:ℚ)-1) < (A:ℚ) / (S:ℚ) := by rw [← hqdef]; exact hk1
        calc ((k:ℚ)-1) * (S:ℚ) < ((A:ℚ)/(S:ℚ)) * (S:ℚ) :=
              mul_lt_mul_of_pos_right h0 hSq
          _ = (A:ℚ) := by field_simp
      have h2 : ((k:ℤ)-1) * S < A := by exact_mod_cast h1
      omega
    have hqsub : q - ((k:ℚ)-1) = (N:ℚ)/(S:ℚ) := by
      rw [hqdef, hNdef]
      push_cast
      field_simp
      ring
    have hmKp : (N:ℚ)/(S:ℚ) * 2^((52:ℤ)-e) = m - (Kp:ℚ) := by
      rw [← hqsub, hmdef, hcastKp]
      ring
    -- half-unit gap between the significand and the grid point below
    have hNS : (2:ℚ)^(e-(53:ℤ)) ≤ (N:ℚ)/(S:ℚ) := by
      have hN1q : (1:ℚ) ≤ (N:ℚ) := by exact_mod_cast hN1
      have h2 : (1:ℚ)/(S:ℚ) ≤ (N:ℚ)/(S:ℚ) := by
        gcongr
      have h3 : (1:ℚ)/(2:ℚ)^((53:ℤ)-e) ≤ 1/(S:ℚ) :=
        one_div_le_one_div_of_le hSq hSle
      have h4 : (2:ℚ)^(e-(53:ℤ)) = 1/(2:ℚ)^((53:ℤ)-e) := by
        rw [one_div, ← zpow_neg]
        congr 1
        ring
      rw [h4]
      linarith
    have hgap : (Kp:ℚ) + 1/2 ≤ m := by
      have h5 := mul_le_mul_of_nonneg_right hNS
        (le_of_lt (two_zpow_pos ((52:ℤ)-e)))
      rw [two_zpow_mul] at h5
      have harith : e - 53 + (52 - e) = -1 := by ring
      rw [harith] at h5
      have hhalf : (2:ℚ)^(-1 : ℤ) = 1/2 := by norm_num
      rw [hhalf, hmKp] at h5
      linarith
    -- a tie is impossible: it would force the dividend above 2 ^ 53
    have hKplt : (Kp:ℚ) + 1/2 < m := by
      rcases lt_or_eq_of_le hgap with h | htie
      · exact h
      · exfalso
        have h7 : (N:ℚ)/(S:ℚ) * 2^((52:ℤ)-e) = 1/2 := by
          rw [hmKp, ← htie]
          ring
        have h8 : (N:ℚ) * 2^((52:ℤ)-e) * 2 = (S:ℚ) := by
          calc (N:ℚ) * 2^((52:ℤ)-e) * 2
              = ((N:ℚ)/(S:ℚ) * 2^((52:ℤ)-e)) * (S:ℚ) * 2 := by
                field_simp
            _ = (1/2) * (S:ℚ) * 2 := by rw [h7]
            _ = (S:ℚ) := by ring
        have h9 : (N:ℚ) * 2^((53:ℤ)-e) = (S:ℚ) := by
          have hexp : (53:ℤ) - e = (52 - e) + 1 := by ring
          rw [hexp, ← two_zpow_mul, zpow_one, ← mul_assoc]
          exact h8
        have hNone : (N:ℚ) = 1 := by
          have hppos := two_zpow_pos ((53:ℤ)-e)
          have hN1q : (1:ℚ) ≤ (N:ℚ) := by exact_mod_cast hN1
          by_contra hne
          have hNge2 : (2:ℤ) ≤ N := by
            have : (N:ℚ) ≠ 1 := hne
            have : N ≠ 1 := by exact_mod_cast this
            omega
          have hNge2q : (2:ℚ) ≤ (N:ℚ) := by exact_mod_cast hNge2
          nlinarith [hSle, h9, hppos]
        have hS253' : (S:ℚ) = 2^((53:ℤ)-e) := by
          rw [← h9, hNone, one_mul]
        have hk53 : ((53:ℤ) - e) = (((53-e).toNat : ℕ):ℤ) :=
          (Int.toNat_of_nonneg (by omega)).symm
        have hSint : S = 2^((53-e).toNat) := by
          have : (S:ℚ) = ((2^((53-e).toNat) : ℤ):ℚ) := by
            rw [hS253', hk53, zpow_natCast]
            norm_cast
          exact_mod_cast this
        have htoNat : (53-e).toNat = (52-e).toNat + 1 := by omega
        have hKp52 : (2^52 : ℤ) ≤ Kp := by
          have h52cast : ((2:ℚ))^((52:ℤ)) = ((2^52 : ℤ):ℚ) := by norm_num
          have h1 : ((2^52:ℤ):ℚ) - 1 < (Kp:ℚ) := by
            rw [← h52cast]
            have : m = (Kp:ℚ) + 1/2 := htie.symm
            linarith [hm52]
          have h2 : (2^52:ℤ) - 1 < Kp := by exact_mod_cast h1
          omega
        have hks : (k-1)*S = Kp * 2 := by
          rw [hSint, htoNat, hKpdef, pow_succ]
          ring
        have hNint : N = 1 := by exact_mod_cast hNone
        have hA' : A = Kp * 2 + 1 := by
          have : N = A - (k-1)*S := hNdef
          omega
        have hpw : (2:ℤ)^53 = 2^52 * 2 := by norm_num
        linarith
    -- strictly above the grid point below, so rounding stays above it
    have hrKp : Kp < roundNearestEven m := roundNearestEven_gt m Kp hKplt
    have hlb : ((k:ℚ) - 1) < flPos q := by
      rw [flPos, ← hedef, ← hmdef]
      have h1 : (Kp + 1 : ℤ) ≤ roundNearestEven m := hrKp
      have h1q : ((Kp:ℚ) + 1) ≤ ((roundNearestEven m : ℤ):ℚ) := by
        exact_mod_cast h1
      have h2 := mul_le_mul_of_nonneg_right h1q
        (le_of_lt (two_zpow_pos (e - 52)))
      have h3 : ((Kp:ℚ) + 1) * 2^(e-(52:ℤ)) = ((k:ℚ)-1) + 2^(e-(52:ℤ)) := by
        rw [hcastKp, add_mul, mul_assoc, two_zpow_mul]
        have harith : (52:ℤ) - e + (e - 52) = 0 := by ring
        rw [harith, zpow_zero, mul_one, one_mul]
      have h4 : (0:ℚ) < 2^(e-(52:ℤ)) := two_zpow_pos _
      linarith
    have hflq : fl q = flPos q := by rw [fl, if_pos hq0]
    rw [hflq]
    exact Int.ceil_eq_iff.mpr ⟨hlb, hub⟩

theorem wrap64_eq_self (x : ℤ) (h1 : -(2^63) ≤ x) (h2 : x < 2^63) :
    wrap64 x = x := by
  unfold wrap64
  have hp : (2:ℤ)^64 = 2^63 + 2^63 := by norm_num
  have h3 : 0 ≤ x + 2^63 := by linarith
  have h4 : x + 2^63 < 2^64 := by linarith
  rw [Int.emod_eq_of_lt h3 h4]
  ring

/-- Explicit form of the constant-case guard structure. -/
theorem tripCountConstCase_eq (lb ub step maxTC : ℤ) :
    tripCountConstCase lb ub step maxTC =
      if 0 < step ∧ lb < ub ∧ derivedTripCountFP lb ub step < maxTC
      then some (derivedTripCountFP lb ub step) else none := by
  simp only [tripCountConstCase]
  split_ifs with h1 h2 h3 h4 <;> first | rfl | omega

/-- In the exactly-representable range the double-precision trip count is the
exact rational ceiling. -/
theorem derivedTripCountFP_exact (lowerBound upperBound step : ℤ)
    (hstep0 : 0 < step) (hstep53 : step ≤ 2 ^ 53)
    (hlt : lowerBound < upperBound)
    (hrange : upperBound - lowerBound ≤ 2 ^ 53) :
    derivedTripCountFP lowerBound upperBound step =
      ⌈((upperBound : ℚ) - (lowerBound : ℚ)) / (step : ℚ)⌉ := by
  have hA1 : 1 ≤ upperBound - lowerBound := by omega
  have hbig : (2:ℤ)^53 < 2^63 := by norm_num
  have hw : wrap64 (upperBound - lowerBound) = upperBound - lowerBound :=
    wrap64_eq_self _ (by linarith) (by linarith)
  unfold derivedTripCountFP
  rw [hw, fl_intCast _ hA1 hrange, fl_intCast step (by omega) hstep53,
    ceil_fl_div _ _ hA1 hrange (by omega)]
  congr 1
  push_cast
  ring

/-- The integer `2 ^ 53 + 1` is not representable in binary64: it falls on a
tie and rounds down to `2 ^ 53` (ties to even). -/
theorem fl_pow53_succ : fl ((9007199254740993 : ℚ)) = 9007199254740992 := by
  have hq : (0:ℚ) < 9007199254740993 := by norm_num
  rw [fl, if_pos hq]
  have hlog : Int.log 2 (9007199254740993 : ℚ) = 53 := by
    have h1 : (53:ℤ) ≤ Int.log 2 (9007199254740993 : ℚ) := by
      refine (Int.zpow_le_iff_le_log (by norm_num) hq).mp ?_
      norm_num
    have h2 : Int.log 2 (9007199254740993 : ℚ) < 54 := by
      refine (Int.lt_zpow_iff_log_lt (by norm_num) hq).mp ?_
      norm_num
    omega
  rw [flPos, hlog]
  have hm : (9007199254740993 : ℚ) * 2 ^ ((52:ℤ) - 53) =
      9007199254740993 / 2 := by
    rw [(by norm_num : (52:ℤ) - 53 = -1), zpow_neg, zpow_one]
    ring
  rw [hm]
  have hfloor : ⌊(9007199254740993 : ℚ)/2⌋ = 4503599627370496 := by
    rw [Int.floor_eq_iff]
    constructor <;> norm_num
  have hr : roundNearestEven ((9007199254740993 : ℚ)/2) =
      4503599627370496 := by
    unfold roundNearestEven
    rw [hfloor]
    have hc1 : ¬((9007199254740993 : ℚ)/2 - ((4503599627370496:ℤ):ℚ) <
        1/2) := by
      push_cast
      norm_num
    have hc2 : ¬((1:ℚ)/2 < (9007199254740993 : ℚ)/2 -
        ((4503599627370496:ℤ):ℚ)) := by
      push_cast
      norm_num
    have hc3 : (2:ℤ) ∣ 4503599627370496 := by norm_num
    rw [if_neg hc1, if_neg hc2, if_pos hc3]
  rw [hr]
  rw [(by norm_num : (53:ℤ) - 52 = 1), zpow_one]
  norm_num

/-- Shared evaluation: at `lower = 0`, `upper = 2 ^ 53 + 1`, `step = 1` the
double-precision computation of the code yields `2 ^ 53`, one less than the
exact ceiling `2 ^ 53 + 1`. -/
theorem derivedTripCountFP_tie_eval :
    derivedTripCountFP 0 9007199254740993 1 = 9007199254740992 := by
  unfold derivedTripCountFP
  have hw : wrap64 (9007199254740993 - 0) = 9007199254740993 := by
    rw [wrap64_eq_self] <;> norm_num
  rw [hw]
  have hcast : (((9007199254740993:ℤ)):ℚ) = (9007199254740993 : ℚ) := by
    norm_num
  have hone : fl (((1:ℤ)):ℚ) = ((1:ℤ):ℚ) := fl_intCast 1 (by norm_num) (by norm_num)
  rw [hcast, fl_pow53_succ, hone]
  have h2 : ((9007199254740992 : ℚ)) / ((1:ℤ):ℚ) = (9007199254740992 : ℚ) := by
    push_cast
    norm_num
  rw [h2]
  have h3 : (9007199254740992 : ℚ) = (((9007199254740992:ℤ)):ℚ) := by norm_num
  rw [h3, fl_intCast _ (by norm_num) (by norm_num)]
  exact_mod_cast Int.ceil_intCast (α := ℚ) 9007199254740992

/-- C2 (amended): for 64-bit constants with `0 < step ≤ 2 ^ 53` and
`0 < upperBound - lowerBound ≤ 2 ^ 53` (so that the conversions to double are
exact), the trip count derived by the constant case of
`LoopOpRewriteMaxTripCountPattern` — double-precision division followed by
ceiling — equals the exact integer ceiling of
`(upperBound - lowerBound) / step`; e.g. lower 0, upper 10, step 3 yield 4.
Outside this range the double rounding can lose the exact value. -/
theorem c2_derivedTripCount_exact (lowerBound upperBound step : ℤ)
    (hstep0 : 0 < step) (hstep53 : step ≤ 2 ^ 53)
    (hlt : lowerBound < upperBound)
    (hrange : upperBound - lowerBound ≤ 2 ^ 53) :
    derivedTripCountFP lowerBound upperBound step =
      ⌈((upperBound : ℚ) - (lowerBound : ℚ)) / (step : ℚ)⌉ :=
  derivedTripCountFP_exact lowerBound upperBound step hstep0 hstep53 hlt hrange

/-- C2 witness: the spec example lower 0, upper 10, step 3 gives exactly 4. -/
theorem c2_derivedTripCount_exact_witness :
    ((0:ℤ) < 3 ∧ (3:ℤ) ≤ 2 ^ 53 ∧ (0:ℤ) < 10 ∧ (10:ℤ) - 0 ≤ 2 ^ 53) ∧
    derivedTripCountFP 0 10 3 =
      ⌈(((10 : ℤ) : ℚ) - ((0:ℤ):ℚ)) / ((3:ℤ):ℚ)⌉ ∧
    ⌈(((10 : ℤ) : ℚ) - ((0:ℤ):ℚ)) / ((3:ℤ):ℚ)⌉ = 4 :=
  ⟨⟨by norm_num, by norm_num, by norm_num, by norm_num⟩,
    c2_derivedTripCount_exact 0 10 3 (by norm_num) (by norm_num) (by norm_num)
      (by norm_num),
    by
      rw [(by push_cast; norm_num :
        (((10 : ℤ) : ℚ) - ((0:ℤ):ℚ)) / ((3:ℤ):ℚ) = (10:ℚ)/3)]
      rw [Int.ceil_eq_iff]
      constructor <;> norm_num⟩

/-- C2 counterexample: at lower 0, upper `2 ^ 53 + 1`, step 1 — all valid
64-bit integer constants — the code computes `2 ^ 53`, but the exact integer
ceiling is `2 ^ 53 + 1`.  The claim quantified over every 64-bit triple is
therefore false on the code. -/
theorem c2_counterexample :
    derivedTripCountFP 0 9007199254740993 1 = 9007199254740992 ∧
    ⌈(((9007199254740993:ℤ):ℚ) - ((0:ℤ):ℚ)) / ((1:ℤ):ℚ)⌉ =
      9007199254740993 ∧
    (9007199254740992 : ℤ) ≠ 9007199254740993 := by
  refine ⟨derivedTripCountFP_tie_eval, ?_, by norm_num⟩
  have h : (((9007199254740993:ℤ):ℚ) - ((0:ℤ):ℚ)) / ((1:ℤ):ℚ) =
      (((9007199254740993:ℤ)):ℚ) := by
    push_cast
    norm_num
  rw [h]
  exact_mod_cast Int.ceil_intCast (α := ℚ) 9007199254740993

/-- C1 (amended): in the constant case, whenever the extracted constants
satisfy `upperBound - lowerBound ≤ 2 ^ 53` and `step ≤ 2 ^ 53` (so that the
double-precision computation is exact), the pattern rewrites exactly when
`step > 0`, `upperBound > lowerBound` and the exact ceiling
`ceil((upperBound - lowerBound) / step)` is strictly smaller than the
constant maximum trip count; in every other such constant case it declines;
on success the new constant equals that ceiling and is strictly smaller than
the original maximum trip count.  Outside the exact range, the guard and the
replacement value use the double-precision trip count, which can differ from
the exact ceiling. -/
theorem c1_tripCountConstCase_correct (lowerBound upperBound step maxTC : ℤ)
    (hstep53 : step ≤ 2 ^ 53)
    (hrange : upperBound - lowerBound ≤ 2 ^ 53) :
    ((tripCountConstCase lowerBound upperBound step maxTC).isSome ↔
      0 < step ∧ lowerBound < upperBound ∧
        ⌈((upperBound:ℚ) - (lowerBound:ℚ)) / (step:ℚ)⌉ < maxTC) ∧
    (∀ t, tripCountConstCase lowerBound upperBound step maxTC = some t →
      t = ⌈((upperBound:ℚ) - (lowerBound:ℚ)) / (step:ℚ)⌉ ∧ t < maxTC) := by
  rw [tripCountConstCase_eq]
  by_cases hg : 0 < step ∧ lowerBound < upperBound
  · obtain ⟨hs, hl⟩ := hg
    have hder := derivedTripCountFP_exact lowerBound upperBound step hs
      hstep53 hl hrange
    rw [hder]
    by_cases hm : ⌈((upperBound:ℚ) - (lowerBound:ℚ)) / (step:ℚ)⌉ < maxTC
    · rw [if_pos ⟨hs, hl, hm⟩]
      refine ⟨by simp [hs, hl, hm], ?_⟩
      intro t ht
      simp only [Option.some_inj] at ht
      omega
    · rw [if_neg (by tauto)]
      refine ⟨by simp [hm], ?_⟩
      intro t ht
      simp at ht
  · rw [if_neg (by tauto)]
    constructor
    · simp only [Option.isSome_none, Bool.false_eq_true, false_iff]
      tauto
    · intro t ht
      simp at ht

/-- C1 witness: lower 0, upper 10, step 3, maximum 100 — the pattern rewrites
with the exact trip count 4, which is below the old maximum. -/
theorem c1_tripCountConstCase_correct_witness :
    ((3:ℤ) ≤ 2 ^ 53 ∧ (10:ℤ) - 0 ≤ 2 ^ 53) ∧
    (((tripCountConstCase 0 10 3 100).isSome ↔
      (0:ℤ) < 3 ∧ (0:ℤ) < 10 ∧
        ⌈(((10:ℤ):ℚ) - ((0:ℤ):ℚ)) / ((3:ℤ):ℚ)⌉ < 100) ∧
    (∀ t, tripCountConstCase 0 10 3 100 = some t →
      t = ⌈(((10:ℤ):ℚ) - ((0:ℤ):ℚ)) / ((3:ℤ):ℚ)⌉ ∧ t < 100)) :=
  ⟨⟨by norm_num, by norm_num⟩,
    c1_tripCountConstCase_correct 0 10 3 100 (by norm_num) (by norm_num)⟩

/-- C1 counterexample: with lower 0, upper `2 ^ 53 + 1`, step 1 and maximum
trip count `2 ^ 53 + 1`, the exact ceiling equals the maximum, so the claim
requires the pattern to decline; the code nevertheless rewrites, installing
the double-precision value `2 ^ 53`. -/
theorem c1_counterexample :
    tripCountConstCase 0 9007199254740993 1 9007199254740993 =
      some 9007199254740992 ∧
    ¬(⌈(((9007199254740993:ℤ):ℚ) - ((0:ℤ):ℚ)) / ((1:ℤ):ℚ)⌉ <
        (9007199254740993:ℤ)) := by
  constructor
  · rw [tripCountConstCase_eq, derivedTripCountFP_tie_eval]
    rw [if_pos (by norm_num)]
  · have h : (((9007199254740993:ℤ):ℚ) - ((0:ℤ):ℚ)) / ((1:ℤ):ℚ) =
        (((9007199254740993:ℤ)):ℚ) := by
      push_cast
      norm_num
    rw [h]
    have h2 : ⌈(((9007199254740993:ℤ)):ℚ)⌉ = (9007199254740993:ℤ) :=
      Int.ceil_intCast _
    omega

/- ===================================================================
   Part 2.  IR model of `LoopOpRewriteMaxTripCountPattern`
   (`src/Dialect/ONNX/Rewrite.cpp`, `matchOp` and `matchAndRewrite`).
   Values are block arguments or operation results; the kinds of defining
   operations relevant to the match are integer `ONNXConstantOp`
   (with its dense integer value), `ONNXAddOp`, `ONNXLessOp`.
   =================================================================== -/

/-- A value in the IR: a block argument (by index) or the result of an
operation (by operation id). -/
inductive IRValue where
  | blockArg (i : Nat)
  | opResult (op : Nat)
deriving DecidableEq, Repr

/-- Kind of a defining operation, as far as the match inspects it. -/
inductive IROpKind where
  | intConst (v : ℤ)
  | otherConst
  | add (lhs rhs : IRValue)
  | less (lhs rhs : IRValue)
  | other
deriving DecidableEq, Repr

/-- Model of an `ONNXLoopOp` together with its body block: the defining-op
map, the integer-element-type test on values, the loop operands (operand 0
is the maximum trip count), the single-block and terminator-kind facts, and
the operands of the body `ONNXReturnOp`. -/
structure LoopModel where
  defs : Nat → IROpKind
  intTyped : IRValue → Bool
  loopOperands : List IRValue
  bodyIsOneBlock : Bool
  terminatorIsReturn : Bool
  returnOperands : List IRValue

/-- `isDefinedByIntegerConstantOp`: not a block argument and defined by an
`ONNXConstantOp` holding a dense integer attribute. -/
def isDefinedByIntegerConstantOp (m : LoopModel) (v : IRValue) : Bool :=
  match v with
  | .blockArg _ => false
  | .opResult o =>
    match m.defs o with
    | .intConst _ => true
    | _ => false

/-- `isInvariantBlockArg`: a block argument equal to its own successor in the
terminator (operand `argNumber - 1`).  (The C++ subtraction on the unsigned
argument number is undefined for argument 0; `Nat` truncation is used.) -/
def isInvariantBlockArg (m : LoopModel) (v : IRValue) : Bool :=
  match v with
  | .blockArg i => m.returnOperands[i-1]? = some v
  | .opResult _ => false

/-- `isIntConstantOrInvariantBlockArg`. -/
def isIntConstantOrInvariantBlockArg (m : LoopModel) (v : IRValue) : Bool :=
  isInvariantBlockArg m v ∨ isDefinedByIntegerConstantOp m v

/-- `isUpdatedArgByValue`: a block argument whose successor operand in the
terminator is the given new value. -/
def isUpdatedArgByValue (m : LoopModel) (v newV : IRValue) : Bool :=
  match v with
  | .blockArg i => m.returnOperands[i-1]? = some newV
  | .opResult _ => false

/-- `getFedValue`: the loop operand feeding a body block argument. -/
def getFedValue (m : LoopModel) (v : IRValue) : Option IRValue :=
  match v with
  | .blockArg i => m.loopOperands[i]?
  | .opResult _ => none

/-- `getOneIntegerConstant` (first element, sign-extended). -/
def getOneIntegerConstant (m : LoopModel) (v : IRValue) : ℤ :=
  match v with
  | .opResult o =>
    match m.defs o with
    | .intConst k => k
    | _ => 0
  | .blockArg _ => 0

/-- Resolution of the upper bound / step: an invariant block argument is
replaced by the loop operand feeding it; otherwise the value (an in-loop
constant, which the C++ code clones without changing its attribute) is kept. -/
def resolveOutside (m : LoopModel) (v : IRValue) : Option IRValue :=
  if isInvariantBlockArg m v then getFedValue m v else some v

/-- Outcome of a successful match: the new maximum-trip-count operand is
either a fresh constant (case 1) or the emitted
`min(oldMax, ceil((ub - lb)/step))` arithmetic (case 2). -/
inductive NewMaxTripCount where
  | constVal (v : ℤ)
  | minEmitted
deriving DecidableEq, Repr

/-- `LoopOpRewriteMaxTripCountPattern::matchOp`: the match sequence of the
C++ code, in source order.  Out-of-range operand accesses make the match
fail. -/
def matchOp (m : LoopModel) : Option NewMaxTripCount :=
  match m.loopOperands[0]? with
  | none => none
  | some maxTrip =>
  -- the maximum trip count is a constant
  if !isDefinedByIntegerConstantOp m maxTrip then none else
  -- single-block body ending in ONNXReturnOp
  if !m.bodyIsOneBlock then none else
  if !m.terminatorIsReturn then none else
  match m.returnOperands[0]? with
  | none => none
  | some (IRValue.blockArg _) => none
  | some (IRValue.opResult bc) =>
    match m.defs bc with
    | .less newCounterValue ubValue0 =>
      -- input type of Less must be integer
      if !m.intTyped newCounterValue then none else
      match newCounterValue with
      | .blockArg _ => none
      | .opResult nc =>
        match m.defs nc with
        | .add counterValue stepValue0 =>
          if !isUpdatedArgByValue m counterValue newCounterValue then none
          else
          if !isIntConstantOrInvariantBlockArg m stepValue0 then none else
          match getFedValue m counterValue with
          | none => none
          | some lbValue =>
          if !isIntConstantOrInvariantBlockArg m ubValue0 then none else
          match resolveOutside m ubValue0, resolveOutside m stepValue0 with
          | some ubValue, some stepValue =>
            if isDefinedByIntegerConstantOp m lbValue ∧
                isDefinedByIntegerConstantOp m ubValue ∧
                isDefinedByIntegerConstantOp m stepValue then
              -- case 1: all constants
              match tripCountConstCase (getOneIntegerConstant m lbValue)
                  (getOneIntegerConstant m ubValue)
                  (getOneIntegerConstant m stepValue)
                  (getOneIntegerConstant m maxTrip) with
              | some t => some (.constVal t)
              | none => none
            else
              -- case 2: emit min(oldMax, ceil((ub - lb)/step))
              some .minEmitted
          | _, _ => none
        | _ => none
    | _ => none

/-- `matchAndRewrite`: on a successful match, replace the uses of the old
maximum-trip-count operand among the loop operands and overwrite the body
terminator's operand 0 with body block argument 1
(`loopBodyTerminator->setOperand(0, loopBody.front().getArgument(1))`). -/
def loopMatchAndRewrite (m : LoopModel) :
    Option (NewMaxTripCount × List IRValue) :=
  match matchOp m with
  | none => none
  | some nm => some (nm, m.returnOperands.set 0 (.blockArg 1))

/-- Inversion: a successful match implies the break condition is the result
of a less-than comparison. -/
theorem matchOp_some_breakCond (m : LoopModel) (nm : NewMaxTripCount)
    (h : matchOp m = some nm) :
    ∃ bc lhs rhs, m.returnOperands[0]? = some (IRValue.opResult bc) ∧
      m.defs bc = IROpKind.less lhs rhs := by
  unfold matchOp at h
  split at h
  · exact Option.noConfusion h
  · split at h
    · exact Option.noConfusion h
    · split at h
      · exact Option.noConfusion h
      · split at h
        · exact Option.noConfusion h
        · rename_i h4
          split at h
          · exact Option.noConfusion h
          · exact Option.noConfusion h
          · rename_i bc hbc
            split at h
            case _ lhs rhs hdefs => exact ⟨bc, lhs, rhs, hbc, hdefs⟩
            all_goals exact Option.noConfusion h

/-- C9: whenever `LoopOpRewriteMaxTripCountPattern` succeeds — in the
constant case or the emitted-arithmetic case — the loop-body terminator's
first operand is overwritten with the body block's second block argument
(the incoming loop-continue flag); the matched break condition was the
result of a less-than comparison, and the new operand, being a block
argument, is not that comparison's result. -/
theorem c9_break_condition_overwritten (m : LoopModel)
    (nm : NewMaxTripCount) (ros : List IRValue)
    (h : loopMatchAndRewrite m = some (nm, ros)) :
    ros[0]? = some (IRValue.blockArg 1) ∧
    (∃ bc lhs rhs, m.returnOperands[0]? = some (IRValue.opResult bc) ∧
      m.defs bc = IROpKind.less lhs rhs ∧
      (IRValue.blockArg 1 : IRValue) ≠ IRValue.opResult bc) := by
  unfold loopMatchAndRewrite at h
  cases hmatch : matchOp m with
  | none => rw [hmatch] at h; simp at h
  | some nm' =>
    rw [hmatch] at h
    simp only [Option.some_inj, Prod.mk.injEq] at h
    obtain ⟨hnm, hros⟩ := h
    obtain ⟨bc, lhs, rhs, h4, hdefs⟩ := matchOp_some_breakCond m nm' hmatch
    constructor
    · rw [← hros]
      cases hl : m.returnOperands with
      | nil => rw [hl] at h4; simp at h4
      | cons a t => simp [List.set]
    · exact ⟨bc, lhs, rhs, h4, hdefs, by simp⟩

/-- A concrete loop model matching the pattern in its emitted-arithmetic
case: the upper bound is a loop-invariant block argument fed by a
non-constant outer value. -/
def loopWitnessModel : LoopModel where
  defs n :=
    match n with
    | 0 => .intConst 100
    | 1 => .intConst 0
    | 2 => .intConst 1
    | 3 => .add (.blockArg 2) (.opResult 2)
    | 4 => .less (.opResult 3) (.blockArg 3)
    | _ => .other
  intTyped _ := true
  loopOperands := [.opResult 0, .opResult 8, .opResult 1, .opResult 7]
  bodyIsOneBlock := true
  terminatorIsReturn := true
  returnOperands := [.opResult 4, .opResult 3, .blockArg 3]

/-- C9 witness: the concrete model rewrites and the terminator's first
operand becomes block argument 1. -/
theorem c9_break_condition_overwritten_witness :
    ([IRValue.blockArg 1, IRValue.opResult 3,
        IRValue.blockArg 3] : List IRValue)[0]? =
      some (IRValue.blockArg 1) ∧
    (∃ bc lhs rhs, loopWitnessModel.returnOperands[0]? =
        some (IRValue.opResult bc) ∧
      loopWitnessModel.defs bc = IROpKind.less lhs rhs ∧
      (IRValue.blockArg 1 : IRValue) ≠ IRValue.opResult bc) :=
  c9_break_condition_overwritten loopWitnessModel NewMaxTripCount.minEmitted
    [IRValue.blockArg 1, IRValue.opResult 3, IRValue.blockArg 3] (by rfl)

/- ===================================================================
   Part 3.  Affine-map permutation composition used by
   `UnstickLoadStoreStickRemovalPattern` for the NCHW layout
   (`ZLowRewrite.cpp`, load rewrite lines 372-379 and store rewrite lines
   441-448):
     permuteMap := AffineMap::getPermutationMap({0, 2, 3, 1})
     newMap    := permuteMap.compose(oldMap)
   =================================================================== -/

/-- Affine expressions over dimension variables. -/
inductive AffineExpr where
  | dim (i : Nat)
  | cst (v : ℤ)
  | add (a b : AffineExpr)
  | mul (a b : AffineExpr)
  | floorDiv (a b : AffineExpr)
  | ceilDiv (a b : AffineExpr)
  | modExpr (a b : AffineExpr)
deriving DecidableEq, Repr

/-- Evaluation of an affine expression at a dimension assignment. -/
def AffineExpr.eval : AffineExpr → List ℤ → ℤ
  | .dim i, ds => ds.getD i 0
  | .cst v, _ => v
  | .add a b, ds => a.eval ds + b.eval ds
  | .mul a b, ds => a.eval ds * b.eval ds
  | .floorDiv a b, ds => Int.fdiv (a.eval ds) (b.eval ds)
  | .ceilDiv a b, ds => -(Int.fdiv (-(a.eval ds)) (b.eval ds))
  | .modExpr a b, ds => Int.fmod (a.eval ds) (b.eval ds)

/-- Substitution of dimension variables by expressions
(`AffineMap::compose` replaces each dimension of the outer map by the
corresponding result of the inner map). -/
def AffineExpr.replaceDims : AffineExpr → List AffineExpr → AffineExpr
  | .dim i, rs => rs.getD i (.cst 0)
  | .cst v, _ => .cst v
  | .add a b, rs => .add (a.replaceDims rs) (b.replaceDims rs)
  | .mul a b, rs => .mul (a.replaceDims rs) (b.replaceDims rs)
  | .floorDiv a b, rs => .floorDiv (a.replaceDims rs) (b.replaceDims rs)
  | .ceilDiv a b, rs => .ceilDiv (a.replaceDims rs) (b.replaceDims rs)
  | .modExpr a b, rs => .modExpr (a.replaceDims rs) (b.replaceDims rs)

/-- An affine map: a dimension count and a list of result expressions. -/
structure AffineMapE where
  numDims : Nat
  results : List AffineExpr
deriving DecidableEq, Repr

/-- `f.compose g`: the map whose results are `f`'s results with each
dimension replaced by the corresponding result of `g` (apply `g` first). -/
def AffineMapE.compose (f g : AffineMapE) : AffineMapE :=
  ⟨g.numDims, f.results.map (AffineExpr.replaceDims · g.results)⟩

/-- `AffineMap::getPermutationMap`: result `i` is dimension `perm[i]`. -/
def getPermutationMap (perm : List Nat) : AffineMapE :=
  ⟨perm.length, perm.map AffineExpr.dim⟩

/-- Pointwise evaluation of an affine map. -/
def AffineMapE.evalMap (f : AffineMapE) (ds : List ℤ) : List ℤ :=
  f.results.map (AffineExpr.eval · ds)

/-- The index map installed on the cloned affine load/store in the NCHW
case: the `[0,2,3,1]` permutation map composed with the original map. -/
def nchwComposedMap (oldMap : AffineMapE) : AffineMapE :=
  (getPermutationMap [0, 2, 3, 1]).compose oldMap

/-- Application of the `[0,2,3,1]` permutation to an index vector. -/
def applyPermNCHW (vs : List ℤ) : List ℤ :=
  [0, 2, 3, 1].map (fun i => vs.getD i 0)

theorem getD_eval (rs : List AffineExpr) (ds : List ℤ) (i : Nat) :
    (rs.getD i (AffineExpr.cst 0)).eval ds =
      (rs.map (AffineExpr.eval · ds)).getD i 0 := by
  induction rs generalizing i with
  | nil => cases i <;> simp [List.getD, AffineExpr.eval]
  | cons r t ih =>
    cases i with
    | zero => simp [List.getD]
    | succ j => simpa [List.getD] using ih j

/-- Substitution commutes with evaluation. -/
theorem replaceDims_eval (e : AffineExpr) (rs : List AffineExpr)
    (ds : List ℤ) :
    (e.replaceDims rs).eval ds = e.eval (rs.map (AffineExpr.eval · ds)) := by
  induction e with
  | dim i => simpa [AffineExpr.replaceDims, AffineExpr.eval] using
      getD_eval rs ds i
  | cst v => simp [AffineExpr.replaceDims, AffineExpr.eval]
  | add a b iha ihb => simp [AffineExpr.replaceDims, AffineExpr.eval, iha, ihb]
  | mul a b iha ihb => simp [AffineExpr.replaceDims, AffineExpr.eval, iha, ihb]
  | floorDiv a b iha ihb =>
      simp [AffineExpr.replaceDims, AffineExpr.eval, iha, ihb]
  | ceilDiv a b iha ihb =>
      simp [AffineExpr.replaceDims, AffineExpr.eval, iha, ihb]
  | modExpr a b iha ihb =>
      simp [AffineExpr.replaceDims, AffineExpr.eval, iha, ihb]

/-- C7: for every original index map and every index tuple, the cloned
operation's map — `[0,2,3,1]` composed with the original — accesses the
position obtained by permuting the original map's result with `[0,2,3,1]`;
in particular on a four-dimensional result `(n, c, h, w)` the permuted
access is `(n, h, w, c)`, so element `(0,c,h,w)` of the NCHW source equals
element `(0,h,w,c)` of the rewritten direct access. -/
theorem c7_nchw_index_composition :
    (∀ (oldMap : AffineMapE) (ds : List ℤ),
      (nchwComposedMap oldMap).evalMap ds =
        applyPermNCHW (oldMap.evalMap ds)) ∧
    (∀ n c h w : ℤ, applyPermNCHW [n, c, h, w] = [n, h, w, c]) := by
  constructor
  · intro oldMap ds
    simp only [nchwComposedMap, getPermutationMap, AffineMapE.compose,
      AffineMapE.evalMap, applyPermNCHW, List.map_map, List.map_cons,
      List.map_nil, Function.comp]
    simp only [AffineExpr.replaceDims, replaceDims_eval, AffineExpr.eval]
    rw [getD_eval, getD_eval, getD_eval, getD_eval]
  · intro n c h w
    rfl

/- ===================================================================
   Part 4.  Operation-graph model for the ZLow peephole patterns
   (`src/Accelerators/NNPA/Transform/ZLow/ZLowRewrite.cpp`).
   `zlow.unstick`/`zlow.stick` have two memref operands (`X`, `Out`) and an
   optional layout attribute and produce no results; a view-like operation
   has a source operand and one result; everything else is `generic`.
   Values are numeric ids; operations sit in one block in program order,
   so operation indices model `isBeforeInBlock`.  The C++ patterns iterate
   over use lists whose order is unspecified; the model scans the block in
   order, which agrees with the code under the stated at-most-one-producer
   hypotheses (the code's own comment: "There is only one UnstickOp per
   buffer, so stop searching when we get one").
   =================================================================== -/

/-- Operation kinds of the ZLow graph model. -/
inductive ZOp where
  | unstick (x out : Nat) (layout : Option String)
  | stick (x out : Nat) (layout : Option String)
  | viewLike (src res : Nat)
  | generic (opnds : List Nat) (res : List Nat)
deriving DecidableEq, Repr

/-- Operand values of an operation. -/
def ZOp.operandsOf : ZOp → List Nat
  | .unstick x out _ => [x, out]
  | .stick x out _ => [x, out]
  | .viewLike s _ => [s]
  | .generic os _ => os

/-- Result values of an operation (`zlow.stick`/`zlow.unstick` write through
their `Out` operand and have no results). -/
def ZOp.resultsOf : ZOp → List Nat
  | .unstick _ _ _ => []
  | .stick _ _ _ => []
  | .viewLike _ r => [r]
  | .generic _ rs => rs

/-- The operation graph: one block of operations in program order plus the
type queries the patterns use. -/
structure ZGraph where
  ops : List ZOp
  blockArgs : List Nat
  staticShape : Nat → Bool
  shape : Nat → List ℤ
  nonIdentityLayout : Nat → Bool
  funcResults : List Nat

/-- Replace one value by another in an operand position. -/
def replOperand (v w u : Nat) : Nat := if u = v then w else u

/-- `replaceAllUsesWith` on a single operation: operands are rewritten,
results are definitions and stay. -/
def ZOp.replaceUses (op : ZOp) (v w : Nat) : ZOp :=
  match op with
  | .unstick x out lay => .unstick (replOperand v w x) (replOperand v w out) lay
  | .stick x out lay => .stick (replOperand v w x) (replOperand v w out) lay
  | .viewLike s r => .viewLike (replOperand v w s) r
  | .generic os rs => .generic (os.map (replOperand v w)) rs

/-- Number of uses of a value (operand occurrences over the whole block);
`hasOneUse` is `countUses = 1`. -/
def countUses (g : ZGraph) (v : Nat) : Nat :=
  (g.ops.map (fun op => op.operandsOf.count v)).sum

/-- `UnstickRemovalPattern`: erase a `zlow.unstick` whose `Out` value has no
use except the operation itself. -/
def unstickRemoval (g : ZGraph) (i : Nat) : Option ZGraph :=
  match g.ops[i]? with
  | some (ZOp.unstick _ out _) =>
    if countUses g out = 1 then some { g with ops := g.ops.eraseIdx i }
    else none
  | _ => none

/-- `StickRemovalPattern`: erase a `zlow.stick` whose `Out` value has no use
except the operation itself. -/
def stickRemoval (g : ZGraph) (i : Nat) : Option ZGraph :=
  match g.ops[i]? with
  | some (ZOp.stick _ out _) =>
    if countUses g out = 1 then some { g with ops := g.ops.eraseIdx i }
    else none
  | _ => none

/-- Values reachable from the function's declared results by following
definitions to their operands. -/
inductive Reachable (g : ZGraph) : Nat → Prop where
  | funcRes (v : Nat) : v ∈ g.funcResults → Reachable g v
  | defStep (v w : Nat) (op : ZOp) : Reachable g v → op ∈ g.ops →
      v ∈ op.resultsOf → w ∈ op.operandsOf → Reachable g w

/-- Helper: an element of a list is still a member after erasing an index
holding a different element. -/
theorem mem_eraseIdx_of_ne {α : Type} [DecidableEq α] (l : List α) (i : Nat)
    (a b : α) (hmem : a ∈ l) (hi : l[i]? = some b) (hne : a ≠ b) :
    a ∈ l.eraseIdx i := by
  induction l generalizing i with
  | nil => simp at hmem
  | cons c t ih =>
    cases i with
    | zero =>
      simp only [List.getElem?_cons_zero, Option.some_inj] at hi
      subst hi
      rcases List.mem_cons.mp hmem with h | h
      · exact absurd h hne
      · simpa [List.eraseIdx] using h
    | succ j =>
      simp only [List.getElem?_cons_succ] at hi
      rcases List.mem_cons.mp hmem with h | h
      · simp [List.eraseIdx, h]
      · simp [List.eraseIdx]
        exact Or.inr (ih j h hi)

/-- Helper: one occurrence contributes its count to the total use count. -/
theorem count_le_sum (f : ZOp → Nat) (l : List ZOp) (i : Nat) (op : ZOp)
    (hi : l[i]? = some op) : f op ≤ (l.map f).sum := by
  induction l generalizing i with
  | nil => simp at hi
  | cons c t ih =>
    cases i with
    | zero =>
      simp only [List.getElem?_cons_zero, Option.some_inj] at hi
      subst hi
      simp
    | succ j =>
      simp only [List.getElem?_cons_succ] at hi
      have := ih j hi
      simp
      omega

/-- Helper: two distinct positions with positive counts force a total of at
least two. -/
theorem two_le_sum (f : ZOp → Nat) (l : List ZOp) (i j : Nat) (hij : i ≠ j)
    (opi opj : ZOp) (hi : l[i]? = some opi) (hj : l[j]? = some opj)
    (h1 : 1 ≤ f opi) (h2 : 1 ≤ f opj) : 2 ≤ (l.map f).sum := by
  induction l generalizing i j with
  | nil => simp at hi
  | cons c t ih =>
    cases i with
    | zero =>
      simp only [List.getElem?_cons_zero, Option.some_inj] at hi
      subst hi
      cases j with
      | zero => exact absurd rfl hij
      | succ j' =>
        simp only [List.getElem?_cons_succ] at hj
        have := count_le_sum f t j' opj hj
        simp
        omega
    | succ i' =>
      simp only [List.getElem?_cons_succ] at hi
      cases j with
      | zero =>
        simp only [List.getElem?_cons_zero, Option.some_inj] at hj
        subst hj
        have := count_le_sum f t i' opi hi
        simp
        omega
      | succ j' =>
        simp only [List.getElem?_cons_succ] at hj
        have := ih i' j' (by omega) hi hj
        simp
        omega

/-- Erasing an operation with no results preserves reachability. -/
theorem reachable_eraseIdx (g : ZGraph) (i : Nat) (opi : ZOp)
    (hi : g.ops[i]? = some opi) (hres : opi.resultsOf = []) (v : Nat) :
    Reachable { g with ops := g.ops.eraseIdx i } v ↔ Reachable g v := by
  constructor
  · intro h
    induction h with
    | funcRes w hw => exact Reachable.funcRes w hw
    | defStep w u op _ hop hres' hoprd ih =>
      exact Reachable.defStep w u op ih
        ((List.eraseIdx_sublist g.ops i).subset hop) hres' hoprd
  · intro h
    induction h with
    | funcRes w hw => exact Reachable.funcRes w hw
    | defStep w u op _ hop hres' hoprd ih =>
      refine Reachable.defStep w u op ih ?_ hres' hoprd
      have hne : op ≠ opi := by
        intro he
        rw [he, hres] at hres'
        simp at hres'
      exact mem_eraseIdx_of_ne g.ops i op opi hop hi hne

/-- C8: a `zlow.unstick` or `zlow.stick` whose `Out` value has exactly one
use — necessarily the operation itself — is erased and the rule succeeds;
with any additional use the rule declines and the graph is unchanged; and
the erasure does not change the set of values reachable from the function's
declared results. -/
theorem c8_dead_conversion_removal :
    (∀ (g : ZGraph) (i : Nat) (x out : Nat) (lay : Option String),
      g.ops[i]? = some (ZOp.unstick x out lay) →
      ((unstickRemoval g i).isSome ↔ countUses g out = 1) ∧
      (countUses g out = 1 →
        ∀ j op, g.ops[j]? = some op → out ∈ op.operandsOf → j = i) ∧
      (∀ g', unstickRemoval g i = some g' →
        g'.ops = g.ops.eraseIdx i ∧ g'.funcResults = g.funcResults ∧
        (∀ v, Reachable g' v ↔ Reachable g v))) ∧
    (∀ (g : ZGraph) (i : Nat) (x out : Nat) (lay : Option String),
      g.ops[i]? = some (ZOp.stick x out lay) →
      ((stickRemoval g i).isSome ↔ countUses g out = 1) ∧
      (countUses g out = 1 →
        ∀ j op, g.ops[j]? = some op → out ∈ op.operandsOf → j = i) ∧
      (∀ g', stickRemoval g i = some g' →
        g'.ops = g.ops.eraseIdx i ∧ g'.funcResults = g.funcResults ∧
        (∀ v, Reachable g' v ↔ Reachable g v))) := by
  constructor
  · intro g i x out lay hop
    refine ⟨?_, ?_, ?_⟩
    · simp only [unstickRemoval, hop]
      by_cases hc : countUses g out = 1
      · simp [hc]
      · simp [hc]
    · intro hc j op hj hmem
      by_contra hne
      have h1 : 1 ≤ (ZOp.unstick x out lay).operandsOf.count out := by
        simp [ZOp.operandsOf, List.count_cons]
      have h2 : 1 ≤ op.operandsOf.count out :=
        List.one_le_count_iff.mpr hmem
      have := two_le_sum (fun op => op.operandsOf.count out) g.ops i j
        (fun he => hne he.symm) _ _ hop hj h1 h2
      unfold countUses at hc
      omega
    · intro g' hg'
      simp only [unstickRemoval, hop] at hg'
      by_cases hc : countUses g out = 1
      · rw [if_pos hc] at hg'
        simp only [Option.some_inj] at hg'
        subst hg'
        exact ⟨rfl, rfl, reachable_eraseIdx g i _ hop rfl⟩
      · rw [if_neg hc] at hg'
        exact Option.noConfusion hg'
  · intro g i x out lay hop
    refine ⟨?_, ?_, ?_⟩
    · simp only [stickRemoval, hop]
      by_cases hc : countUses g out = 1
      · simp [hc]
      · simp [hc]
    · intro hc j op hj hmem
      by_contra hne
      have h1 : 1 ≤ (ZOp.stick x out lay).operandsOf.count out := by
        simp [ZOp.operandsOf, List.count_cons]
      have h2 : 1 ≤ op.operandsOf.count out :=
        List.one_le_count_iff.mpr hmem
      have := two_le_sum (fun op => op.operandsOf.count out) g.ops i j
        (fun he => hne he.symm) _ _ hop hj h1 h2
      unfold countUses at hc
      omega
    · intro g' hg'
      simp only [stickRemoval, hop] at hg'
      by_cases hc : countUses g out = 1
      · rw [if_pos hc] at hg'
        simp only [Option.some_inj] at hg'
        subst hg'
        exact ⟨rfl, rfl, reachable_eraseIdx g i _ hop rfl⟩
      · rw [if_neg hc] at hg'
        exact Option.noConfusion hg'

/-- A concrete graph with a dead `zlow.unstick`: value 1 is used only by the
unstick itself. -/
def deadUnstickGraph : ZGraph where
  ops := [ZOp.unstick 0 1 (some "2D"), ZOp.generic [0] [2]]
  blockArgs := []
  staticShape _ := true
  shape _ := []
  nonIdentityLayout _ := false
  funcResults := [2]

/-- C8 witness: on the concrete graph the unstick rule fires. -/
theorem c8_dead_conversion_removal_witness :
    deadUnstickGraph.ops[0]? = some (ZOp.unstick 0 1 (some "2D")) ∧
    ((unstickRemoval deadUnstickGraph 0).isSome ↔
      countUses deadUnstickGraph 1 = 1) ∧
    countUses deadUnstickGraph 1 = 1 :=
  ⟨by rfl,
    ((c8_dead_conversion_removal.1 deadUnstickGraph 0 0 1 (some "2D")
      (by rfl)).1),
    by decide⟩

/-- Search for the `zlow.unstick` that produced the stick input: the first
operation (in block order, standing in for the use-list scan under the
one-producer-per-buffer invariant) that is an unstick whose `Out` equals the
value and that comes before position `i`.  Returns its position, `X` operand
and layout. -/
def findUnstickAux (x i : Nat) :
    List ZOp → Nat → Option (Nat × Nat × Option String)
  | [], _ => none
  | op :: rest, j =>
    match op with
    | ZOp.unstick ux uout ulay =>
      if uout = x ∧ j < i then some (j, ux, ulay)
      else findUnstickAux x i rest (j+1)
    | _ => findUnstickAux x i rest (j+1)

theorem findUnstickAux_sound (x i : Nat) (l : List ZOp) (j0 j ux : Nat)
    (ulay : Option String)
    (h : findUnstickAux x i l j0 = some (j, ux, ulay)) :
    j0 ≤ j ∧ l[j - j0]? = some (ZOp.unstick ux x ulay) ∧ j < i := by
  induction l generalizing j0 with
  | nil => exact Option.noConfusion h
  | cons op rest ih =>
    match hop : op with
    | ZOp.unstick ux' uout' ulay' =>
      rw [findUnstickAux] at h
      split at h
      · rename_i hcond
        simp only [Option.some_inj, Prod.mk.injEq] at h
        obtain ⟨hj, hux, hulay⟩ := h
        subst hj hux hulay
        refine ⟨le_refl _, ?_, hcond.2⟩
        simp [hcond.1]
      · have := ih (j0+1) h
        refine ⟨by omega, ?_, this.2.2⟩
        have hj1 : j0 + 1 ≤ j := this.1
        have : (op :: rest)[j - j0]? = rest[j - (j0+1)]? := by
          have hd : j - j0 = (j - (j0+1)) + 1 := by omega
          rw [hd]
          simp
        rw [hop] at this
        rw [this]
        exact ih (j0+1) h |>.2.1
    | ZOp.stick a b c =>
      have := ih (j0+1) h
      refine ⟨by omega, ?_, this.2.2⟩
      have : (op :: rest)[j - j0]? = rest[j - (j0+1)]? := by
        have hd : j - j0 = (j - (j0+1)) + 1 := by omega
        rw [hd]
        simp
      rw [hop] at this
      rw [this]
      exact ih (j0+1) h |>.2.1
    | ZOp.viewLike a b =>
      have := ih (j0+1) h
      refine ⟨by omega, ?_, this.2.2⟩
      have : (op :: rest)[j - j0]? = rest[j - (j0+1)]? := by
        have hd : j - j0 = (j - (j0+1)) + 1 := by omega
        rw [hd]
        simp
      rw [hop] at this
      rw [this]
      exact ih (j0+1) h |>.2.1
    | ZOp.generic a b =>
      have := ih (j0+1) h
      refine ⟨by omega, ?_, this.2.2⟩
      have : (op :: rest)[j - j0]? = rest[j - (j0+1)]? := by
        have hd : j - j0 = (j - (j0+1)) + 1 := by omega
        rw [hd]
        simp
      rw [hop] at this
      rw [this]
      exact ih (j0+1) h |>.2.1

theorem findUnstickAux_complete (x i : Nat) (l : List ZOp) (j0 d ux : Nat)
    (ulay : Option String)
    (hd : l[d]? = some (ZOp.unstick ux x ulay)) (hlt : j0 + d < i) :
    findUnstickAux x i l j0 ≠ none := by
  induction l generalizing j0 d with
  | nil => simp at hd
  | cons op rest ih =>
    cases d with
    | zero =>
      simp only [List.getElem?_cons_zero, Option.some_inj] at hd
      subst hd
      rw [findUnstickAux]
      rw [if_pos ⟨rfl, by omega⟩]
      simp
    | succ d' =>
      simp only [List.getElem?_cons_succ] at hd
      match op with
      | ZOp.unstick ux' uout' ulay' =>
        rw [findUnstickAux]
        split
        · simp
        · exact ih (j0+1) d' hd (by omega)
      | ZOp.stick a b c =>
        exact ih (j0+1) d' hd (by omega)
      | ZOp.viewLike a b =>
        exact ih (j0+1) d' hd (by omega)
      | ZOp.generic a b =>
        exact ih (j0+1) d' hd (by omega)

/-- `UnstickStickRemovalPattern` (`ZLowRewrite.cpp` lines 73-117): on a
`zlow.stick`, fail when its input is a block argument; find the unstick that
wrote the input buffer and comes before the stick; fail when either layout
attribute is absent or the layouts differ; otherwise replace all uses of the
stick's `Out` with the unstick's `X` and erase the stick. -/
def unstickStickRemoval (g : ZGraph) (i : Nat) : Option ZGraph :=
  match g.ops[i]? with
  | some (ZOp.stick stickX stickOut stickLay) =>
    if stickX ∈ g.blockArgs then none else
    match findUnstickAux stickX i g.ops 0 with
    | none => none
    | some (_, ux, ulay) =>
      match stickLay, ulay with
      | some l, some ul =>
        if l = ul then
          some { g with ops :=
            (g.ops.map (fun op => op.replaceUses stickOut ux)).eraseIdx i }
        else none
      | _, _ => none
  | _ => none

/-- Whether the operation at position `j` is an unstick writing buffer `x`. -/
def writesBufferAt (g : ZGraph) (j x : Nat) : Bool :=
  match g.ops[j]? with
  | some (ZOp.unstick _ o _) => o = x
  | _ => false

/-- Whether the operation at position `j`, if an unstick, avoids value `v`
in both operands (distinct buffers). -/
def unstickAvoids (g : ZGraph) (j v : Nat) : Bool :=
  match g.ops[j]? with
  | some (ZOp.unstick u o _) => decide (u ≠ v) && decide (o ≠ v)
  | _ => true

/-- After replacing `v` by `w ≠ v`, no operand equals `v`. -/
theorem replaceUses_no_use (op : ZOp) (v w : Nat) (hne : w ≠ v) :
    v ∉ (op.replaceUses v w).operandsOf := by
  cases op with
  | unstick a b lay =>
    simp only [ZOp.replaceUses, ZOp.operandsOf, replOperand, List.mem_cons,
      List.not_mem_nil, or_false]
    rintro (h | h) <;> revert h <;> split_ifs <;> omega
  | stick a b lay =>
    simp only [ZOp.replaceUses, ZOp.operandsOf, replOperand, List.mem_cons,
      List.not_mem_nil, or_false]
    rintro (h | h) <;> revert h <;> split_ifs <;> omega
  | viewLike a b =>
    simp only [ZOp.replaceUses, ZOp.operandsOf, replOperand, List.mem_cons,
      List.not_mem_nil, or_false]
    intro h
    revert h
    split_ifs <;> omega
  | generic os rs =>
    simp only [ZOp.replaceUses, ZOp.operandsOf, List.mem_map, replOperand]
    rintro ⟨u, _, hu⟩
    by_cases h : u = v
    · rw [if_pos h] at hu; exact hne hu
    · rw [if_neg h] at hu; exact h hu

/-- No operation of the rewritten graph uses the erased stick's output. -/
theorem no_use_after_rewrite (l : List ZOp) (i v w : Nat) (hne : w ≠ v)
    (op : ZOp) (hmem : op ∈ (l.map (fun o => o.replaceUses v w)).eraseIdx i) :
    v ∉ op.operandsOf := by
  have h1 : op ∈ l.map (fun o => o.replaceUses v w) :=
    (List.eraseIdx_sublist _ i).subset hmem
  obtain ⟨op₀, _, hop₀⟩ := List.mem_map.mp h1
  rw [← hop₀]
  exact replaceUses_no_use op₀ v w hne

/-- C5: `UnstickStickRemovalPattern` succeeds exactly when the stick's input
is not a block argument, some unstick writing that input precedes the stick
in block order, and both layout tags are present and equal; on success every
use of the stick's `Out` is replaced by the unstick's source `X` and the
stick is erased; otherwise the graph is unchanged.  The hypotheses state the
code's one-unstick-per-buffer invariant and buffer distinctness. -/
theorem c5_unstick_stick_removal (g : ZGraph) (i x out : Nat)
    (lay : Option String)
    (hstick : g.ops[i]? = some (ZOp.stick x out lay))
    (huniq : ∀ j₁, j₁ < i → ∀ j₂, j₂ < i →
      writesBufferAt g j₁ x = true → writesBufferAt g j₂ x = true → j₁ = j₂)
    (hav : ∀ j, j < g.ops.length → unstickAvoids g j out = true) :
    ((unstickStickRemoval g i).isSome ↔
      x ∉ g.blockArgs ∧
      ∃ j ux ulay, j < i ∧ g.ops[j]? = some (ZOp.unstick ux x ulay) ∧
        lay.isSome ∧ ulay = lay) ∧
    (∀ g', unstickStickRemoval g i = some g' →
      ∃ j ux ulay, j < i ∧ g.ops[j]? = some (ZOp.unstick ux x ulay) ∧
        ulay = lay ∧
        g'.ops = (g.ops.map (fun op => op.replaceUses out ux)).eraseIdx i ∧
        ∀ op, op ∈ g'.ops → out ∉ op.operandsOf) := by
  simp only [unstickStickRemoval, hstick]
  by_cases hb : x ∈ g.blockArgs
  · rw [if_pos hb]
    constructor
    · simp only [Option.isSome_none, Bool.false_eq_true, false_iff]
      tauto
    · intro g' hg'
      exact Option.noConfusion hg'
  · rw [if_neg hb]
    cases hf : findUnstickAux x i g.ops 0 with
    | none =>
      constructor
      · simp only [Option.isSome_none, Bool.false_eq_true, false_iff]
        rintro ⟨-, j, ux, ulay, hj, hops, -, -⟩
        exact findUnstickAux_complete x i g.ops 0 j ux ulay hops
          (by omega) hf
      · intro g' hg'
        exact Option.noConfusion hg'
    | some found =>
      obtain ⟨j, ux, ulay⟩ := found
      obtain ⟨-, hops, hji⟩ := findUnstickAux_sound x i g.ops 0 j ux ulay hf
      simp only [Nat.sub_zero] at hops
      have hjlen : j < g.ops.length := (List.getElem?_eq_some.mp hops).1
      have havj := hav j hjlen
      rw [unstickAvoids, hops] at havj
      simp only [Bool.and_eq_true, decide_eq_true_eq] at havj
      obtain ⟨hux_ne, hx_ne⟩ := havj
      match hlay : lay, hulay : ulay with
      | some l, some ul =>
        dsimp only
        by_cases hls : l = ul
        · subst hls
          rw [if_pos rfl]
          constructor
          · simp only [Option.isSome_some, true_iff]
            exact ⟨hb, j, ux, some l, hji, hops, by simp, rfl⟩
          · intro g' hg'
            simp only [Option.some_inj] at hg'
            subst hg'
            refine ⟨j, ux, some l, hji, hops, rfl, rfl, ?_⟩
            intro op hmem
            exact no_use_after_rewrite g.ops i out ux hux_ne op hmem
        · rw [if_neg hls]
          constructor
          · simp only [Option.isSome_none, Bool.false_eq_true, false_iff]
            rintro ⟨-, j', ux', ulay', hj', hops', -, hulay'⟩
            have hw1 : writesBufferAt g j' x = true := by
              rw [writesBufferAt, hops']
              simp
            have hw2 : writesBufferAt g j x = true := by
              rw [writesBufferAt, hops]
              simp
            have hjj : j' = j := huniq j' hj' j hji hw1 hw2
            subst hjj
            rw [hops'] at hops
            simp only [Option.some_inj, ZOp.unstick.injEq] at hops
            have : ulay' = some l := hulay'
            rw [this] at hops
            exact hls (Option.some.inj hops.2.2)
          · intro g' hg'
            exact Option.noConfusion hg'
      | none, _ =>
        dsimp only
        constructor
        · simp only [Option.isSome_none, Bool.false_eq_true, false_iff]
          rintro ⟨-, -, -, -, -, -, hsome, -⟩
          simp at hsome
        · intro g' hg'
          exact Option.noConfusion hg'
      | some l, none =>
        dsimp only
        constructor
        · simp only [Option.isSome_none, Bool.false_eq_true, false_iff]
          rintro ⟨-, j', ux', ulay', hj', hops', -, hulay'⟩
          have hw1 : writesBufferAt g j' x = true := by
            rw [writesBufferAt, hops']
            simp
          have hw2 : writesBufferAt g j x = true := by
            rw [writesBufferAt, hops]
            simp
          have hjj : j' = j := huniq j' hj' j hji hw1 hw2
          subst hjj
          rw [hops'] at hops
          simp only [Option.some_inj, ZOp.unstick.injEq] at hops
          have : ulay' = some l := hulay'
          rw [this] at hops
          exact Option.noConfusion hops.2.2
        · intro g' hg'
          exact Option.noConfusion hg'

/-- A concrete graph with a redundant unstick/stick round trip carrying
matching 2D layouts. -/
def roundTripGraph : ZGraph where
  ops := [ZOp.unstick 0 1 (some "2D"), ZOp.stick 1 2 (some "2D"),
    ZOp.generic [2] [3]]
  blockArgs := []
  staticShape _ := true
  shape _ := []
  nonIdentityLayout _ := false
  funcResults := [3]

/-- C5 witness: the round-trip graph at the stick (position 1). -/
theorem c5_unstick_stick_removal_witness :
    ((unstickStickRemoval roundTripGraph 1).isSome ↔
      1 ∉ roundTripGraph.blockArgs ∧
      ∃ j ux ulay, j < 1 ∧
        roundTripGraph.ops[j]? = some (ZOp.unstick ux 1 ulay) ∧
        (some "2D").isSome ∧ ulay = some "2D") ∧
    (∀ g', unstickStickRemoval roundTripGraph 1 = some g' →
      ∃ j ux ulay, j < 1 ∧
        roundTripGraph.ops[j]? = some (ZOp.unstick ux 1 ulay) ∧
        ulay = some "2D" ∧
        g'.ops = (roundTripGraph.ops.map
          (fun op => op.replaceUses 2 ux)).eraseIdx 1 ∧
        ∀ op, op ∈ g'.ops → 2 ∉ op.operandsOf) :=
  c5_unstick_stick_removal roundTripGraph 1 1 2 (some "2D") (by rfl)
    (by decide) (by decide)

/- ===================================================================
   `StickViewUnstickRemovalPattern` (`ZLowRewrite.cpp` lines 133-203).
   =================================================================== -/

/-- Pattern outcome: `crash` models an out-of-contract access in the C++
code (here `std::optional::value()` on an absent layout attribute),
`noMatch` a clean decline, `rewritten` a successful rewrite. -/
inductive ZPatResult where
  | crash
  | noMatch
  | rewritten (g : ZGraph)

/-- Defining operation of a value: the first operation having it among its
results, with its position. -/
def definingOpAux (v : Nat) : List ZOp → Nat → Option (Nat × ZOp)
  | [], _ => none
  | op :: rest, j =>
    if v ∈ op.resultsOf then some (j, op) else definingOpAux v rest (j+1)

def definingOp (g : ZGraph) (v : Nat) : Option (Nat × ZOp) :=
  definingOpAux v g.ops 0

/-- Search result for the unstick feeding the view source. -/
inductive ZFindResult where
  | crash
  | notFound
  | found (j ux : Nat) (ulay : String)
deriving DecidableEq, Repr

/-- Scan the users of the view source (modelled as the block scan): a
non-unstick user is skipped; on an unstick user the C++ code calls
`.value()` on its layout (crash when absent), skips the NCHW layout, and
takes the first unstick whose `Out` is the source and that precedes the view
operation (position `jview`). -/
def findUnstickViewAux (src jview : Nat) : List ZOp → Nat → ZFindResult
  | [], _ => .notFound
  | op :: rest, j =>
    match op with
    | ZOp.unstick ux uout ulay =>
      if src = ux ∨ src = uout then
        match ulay with
        | none => .crash
        | some ul =>
          if ul = "NCHW" then findUnstickViewAux src jview rest (j+1)
          else if uout = src ∧ j < jview then .found j ux ul
          else findUnstickViewAux src jview rest (j+1)
      else findUnstickViewAux src jview rest (j+1)
    | _ => findUnstickViewAux src jview rest (j+1)

theorem findUnstickViewAux_sound (src jview : Nat) (l : List ZOp)
    (j0 j ux : Nat) (ul : String)
    (h : findUnstickViewAux src jview l j0 = .found j ux ul) :
    j0 ≤ j ∧ l[j - j0]? = some (ZOp.unstick ux src (some ul)) ∧
      j < jview ∧ ul ≠ "NCHW" := by
  induction l generalizing j0 with
  | nil => exact ZFindResult.noConfusion h
  | cons op rest ih =>
    have hstep : ∀ (hrec : findUnstickViewAux src jview rest (j0+1) =
        .found j ux ul),
        j0 ≤ j ∧ (op :: rest)[j - j0]? =
          some (ZOp.unstick ux src (some ul)) ∧ j < jview ∧ ul ≠ "NCHW" := by
      intro hrec
      have := ih (j0+1) hrec
      refine ⟨by omega, ?_, this.2.2⟩
      have hidx : (op :: rest)[j - j0]? = rest[j - (j0+1)]? := by
        have hd : j - j0 = (j - (j0+1)) + 1 := by omega
        rw [hd]
        simp
      rw [hidx]
      exact this.2.1
    cases op with
    | unstick ux' uout' ulay' =>
      unfold findUnstickViewAux at h
      dsimp only at h
      by_cases huser : src = ux' ∨ src = uout'
      · rw [if_pos huser] at h
        cases ulay' with
        | none => exact ZFindResult.noConfusion h
        | some ul' =>
          dsimp only at h
          by_cases hn : ul' = "NCHW"
          · rw [if_pos hn] at h
            exact hstep h
          · rw [if_neg hn] at h
            by_cases hc2 : uout' = src ∧ j0 < jview
            · rw [if_pos hc2] at h
              simp only [ZFindResult.found.injEq] at h
              obtain ⟨hj, hux, hul⟩ := h
              subst hj hux hul
              refine ⟨le_refl _, ?_, hc2.2, hn⟩
              simp [hc2.1]
            · rw [if_neg hc2] at h
              exact hstep h
      · rw [if_neg huser] at h
        exact hstep h
    | stick a b c => exact hstep h
    | viewLike a b => exact hstep h
    | generic a b => exact hstep h

/-- `StickViewUnstickRemovalPattern` (`ZLowRewrite.cpp` lines 133-203):
reads the stick layout with `.value()` (crash when absent); declines on the
NCHW layout, on a block-argument input, and on a non-identity layout of the
input; requires the input to be defined by a view-like operation; finds the
unstick that wrote the view source before the view; requires the stick
result's shape to be static and equal to the unstick source's shape; then
erases the stick, replaces all uses of its `Out` with the unstick's `X`,
and erases the view operation exactly when its result has no remaining
uses. -/
def stickViewUnstickRemoval (g : ZGraph) (i : Nat) : ZPatResult :=
  match g.ops[i]? with
  | some (ZOp.stick stickX stickOut stickLay) =>
    match stickLay with
    | none => .crash
    | some l =>
      if l = "NCHW" then .noMatch else
      if stickX ∈ g.blockArgs then .noMatch else
      if g.nonIdentityLayout stickX then .noMatch else
      match definingOp g stickX with
      | some (jview, ZOp.viewLike src vres) =>
        match findUnstickViewAux src jview g.ops 0 with
        | .crash => .crash
        | .notFound => .noMatch
        | .found _ ux _ =>
          if ¬ g.staticShape stickOut = true ∨ g.shape stickOut ≠ g.shape ux
          then .noMatch
          else
            let ops2 := (g.ops.eraseIdx i).map
              (fun op => op.replaceUses stickOut ux)
            let jv := (if i < jview then jview - 1 else jview)
            .rewritten { g with ops :=
              (if ops2.all (fun op => decide (vres ∉ op.operandsOf))
               then ops2.eraseIdx jv else ops2) }
      | _ => .noMatch
  | _ => .noMatch

/-- C6: `StickViewUnstickRemovalPattern` matches only if the stick layout is
not the permuting NCHW variant, the viewed region (the stick input) carries
no non-default layout, and the stick result's shape is static and equal to
the shape of the matched unstick's source; on match all uses of the stick's
`Out` are redirected to the unstick's source, the stick is erased, and the
view is erased exactly when its result has no remaining uses. -/
theorem c6_stick_view_unstick (g : ZGraph) (i x out : Nat) (l : String)
    (hstick : g.ops[i]? = some (ZOp.stick x out (some l)))
    (hav : ∀ j, j < g.ops.length → unstickAvoids g j out = true) :
    ∀ g', stickViewUnstickRemoval g i = ZPatResult.rewritten g' →
      l ≠ "NCHW" ∧ x ∉ g.blockArgs ∧ g.nonIdentityLayout x = false ∧
      g.staticShape out = true ∧
      ∃ jview src vres j ux ul,
        definingOp g x = some (jview, ZOp.viewLike src vres) ∧
        j < jview ∧ g.ops[j]? = some (ZOp.unstick ux src (some ul)) ∧
        ul ≠ "NCHW" ∧
        g.shape out = g.shape ux ∧
        g'.ops =
          (if ((g.ops.eraseIdx i).map
                (fun op => op.replaceUses out ux)).all
              (fun op => decide (vres ∉ op.operandsOf))
           then ((g.ops.eraseIdx i).map
              (fun op => op.replaceUses out ux)).eraseIdx
                (if i < jview then jview - 1 else jview)
           else (g.ops.eraseIdx i).map
              (fun op => op.replaceUses out ux)) ∧
        (∀ op, op ∈ g'.ops → out ∉ op.operandsOf) := by
  intro g' hg'
  simp only [stickViewUnstickRemoval, hstick] at hg'
  by_cases hn : l = "NCHW"
  · rw [if_pos hn] at hg'
    exact ZPatResult.noConfusion hg'
  · rw [if_neg hn] at hg'
    by_cases hb : x ∈ g.blockArgs
    · rw [if_pos hb] at hg'
      exact ZPatResult.noConfusion hg'
    · rw [if_neg hb] at hg'
      by_cases hnl : g.nonIdentityLayout x = true
      · rw [if_pos hnl] at hg'
        exact ZPatResult.noConfusion hg'
      · rw [if_neg hnl] at hg'
        cases hdef : definingOp g x with
        | none =>
          rw [hdef] at hg'
          exact ZPatResult.noConfusion hg'
        | some found =>
          obtain ⟨jview, opv⟩ := found
          rw [hdef] at hg'
          cases opv with
          | viewLike src vres =>
            dsimp only at hg'
            cases hfind : findUnstickViewAux src jview g.ops 0 with
            | crash =>
              rw [hfind] at hg'
              exact ZPatResult.noConfusion hg'
            | notFound =>
              rw [hfind] at hg'
              exact ZPatResult.noConfusion hg'
            | found j ux ul =>
              rw [hfind] at hg'
              dsimp only at hg'
              obtain ⟨-, hops, hjv, hulnchw⟩ :=
                findUnstickViewAux_sound src jview g.ops 0 j ux ul hfind
              simp only [Nat.sub_zero] at hops
              by_cases hsh : ¬ g.staticShape out = true ∨
                  g.shape out ≠ g.shape ux
              · rw [if_pos hsh] at hg'
                exact ZPatResult.noConfusion hg'
              · rw [if_neg hsh] at hg'
                push_neg at hsh
                obtain ⟨hstat, hshape⟩ := hsh
                simp only [ZPatResult.rewritten.injEq] at hg'
                have hjlen : j < g.ops.length :=
                  (List.getElem?_eq_some.mp hops).1
                have havj := hav j hjlen
                rw [unstickAvoids, hops] at havj
                simp only [Bool.and_eq_true, decide_eq_true_eq] at havj
                refine ⟨hn, hb, by simpa using hnl, hstat,
                  jview, src, vres, j, ux, ul, rfl, hjv, hops, hulnchw,
                  hshape, ?_, ?_⟩
                · rw [← hg']
                · intro op hmem
                  rw [← hg'] at hmem
                  dsimp only at hmem
                  have hops2 : op ∈ (g.ops.eraseIdx i).map
                      (fun op => op.replaceUses out ux) := by
                    split at hmem
                    · exact (List.eraseIdx_sublist _ _).subset hmem
                    · exact hmem
                  obtain ⟨op₀, -, hop₀⟩ := List.mem_map.mp hops2
                  rw [← hop₀]
                  exact replaceUses_no_use op₀ out ux havj.1
          | unstick a b c =>
            exact ZPatResult.noConfusion hg'
          | stick a b c =>
            exact ZPatResult.noConfusion hg'
          | generic a b =>
            exact ZPatResult.noConfusion hg'

/-- A concrete graph with an unstick-view-stick chain: the stick input is a
view of the unstick's normalized buffer and the shapes agree. -/
def viewRoundTripGraph : ZGraph where
  ops := [ZOp.unstick 0 1 (some "2D"), ZOp.viewLike 1 2,
    ZOp.stick 2 3 (some "3D"), ZOp.generic [3] [4]]
  blockArgs := []
  staticShape _ := true
  shape v := if v = 3 ∨ v = 0 then [2, 3] else []
  nonIdentityLayout _ := false
  funcResults := [4]

/-- C6 witness: the concrete chain graph at the stick (position 2). -/
theorem c6_stick_view_unstick_witness :
    ("3D" : String) ≠ "NCHW" ∧ 2 ∉ viewRoundTripGraph.blockArgs ∧
    viewRoundTripGraph.nonIdentityLayout 2 = false ∧
    viewRoundTripGraph.staticShape 3 = true ∧
    ∃ jview src vres j ux ul,
      definingOp viewRoundTripGraph 2 =
        some (jview, ZOp.viewLike src vres) ∧
      j < jview ∧
      viewRoundTripGraph.ops[j]? =
        some (ZOp.unstick ux src (some ul)) ∧
      ul ≠ "NCHW" ∧
      viewRoundTripGraph.shape 3 = viewRoundTripGraph.shape ux ∧
      [ZOp.unstick 0 1 (some "2D"), ZOp.generic [0] [4]] =
        (if ((viewRoundTripGraph.ops.eraseIdx 2).map
              (fun op => op.replaceUses 3 ux)).all
            (fun op => decide (vres ∉ op.operandsOf))
         then ((viewRoundTripGraph.ops.eraseIdx 2).map
            (fun op => op.replaceUses 3 ux)).eraseIdx
              (if 2 < jview then jview - 1 else jview)
         else (viewRoundTripGraph.ops.eraseIdx 2).map
            (fun op => op.replaceUses 3 ux)) ∧
      (∀ op, op ∈ [ZOp.unstick 0 1 (some "2D"), ZOp.generic [0] [4]] →
        3 ∉ op.operandsOf) :=
  c6_stick_view_unstick viewRoundTripGraph 2 2 3 "3D" (by rfl) (by decide)
    { viewRoundTripGraph with
      ops := [ZOp.unstick 0 1 (some "2D"), ZOp.generic [0] [4]] }
    (by rfl)

theorem definingOpAux_sound (v : Nat) (l : List ZOp) (j0 jv : Nat)
    (op : ZOp) (h : definingOpAux v l j0 = some (jv, op)) :
    j0 ≤ jv ∧ l[jv - j0]? = some op ∧ v ∈ op.resultsOf := by
  induction l generalizing j0 with
  | nil => exact Option.noConfusion h
  | cons a rest ih =>
    rw [definingOpAux] at h
    split at h
    · rename_i hmem
      simp only [Option.some_inj, Prod.mk.injEq] at h
      obtain ⟨hj, hop⟩ := h
      subst hj hop
      exact ⟨le_refl _, by simp, hmem⟩
    · have := ih (j0+1) h
      refine ⟨by omega, ?_, this.2.2⟩
      have hidx : (a :: rest)[jv - j0]? = rest[jv - (j0+1)]? := by
        have hd : jv - j0 = (jv - (j0+1)) + 1 := by omega
        rw [hd]
        simp
      rw [hidx]
      exact this.2.1

/-- The matched unstick operation is untouched by the use replacement when
its operands avoid the replaced value. -/
theorem replaceUses_unstick_fixed (ux uout : Nat) (ulay : Option String)
    (v w : Nat) (h1 : ux ≠ v) (h2 : uout ≠ v) :
    (ZOp.unstick ux uout ulay).replaceUses v w = ZOp.unstick ux uout ulay := by
  simp [ZOp.replaceUses, replOperand, h1, h2]

/-- C10: a successful rewrite by `UnstickStickRemovalPattern` or
`StickViewUnstickRemovalPattern` never erases the matched unstick
operation: it is still present in the rewritten graph (its removal is left
to the dead-conversion rules). -/
theorem c10_matched_unstick_preserved :
    (∀ (g : ZGraph) (i x out : Nat) (lay : Option String) (g' : ZGraph),
      g.ops[i]? = some (ZOp.stick x out lay) →
      (∀ j, j < g.ops.length → unstickAvoids g j out = true) →
      unstickStickRemoval g i = some g' →
      ∃ j ux ulay, j < i ∧ g.ops[j]? = some (ZOp.unstick ux x ulay) ∧
        ZOp.unstick ux x ulay ∈ g'.ops) ∧
    (∀ (g : ZGraph) (i x out : Nat) (l : String) (g' : ZGraph),
      g.ops[i]? = some (ZOp.stick x out (some l)) →
      (∀ j, j < g.ops.length → unstickAvoids g j out = true) →
      stickViewUnstickRemoval g i = ZPatResult.rewritten g' →
      ∃ (j src ux : Nat) (ulay : Option String),
        g.ops[j]? = some (ZOp.unstick ux src ulay) ∧
        ZOp.unstick ux src ulay ∈ g'.ops) := by
  constructor
  · intro g i x out lay g' hstick hav hg'
    simp only [unstickStickRemoval, hstick] at hg'
    by_cases hb : x ∈ g.blockArgs
    · rw [if_pos hb] at hg'
      exact Option.noConfusion hg'
    · rw [if_neg hb] at hg'
      cases hf : findUnstickAux x i g.ops 0 with
      | none =>
        rw [hf] at hg'
        exact Option.noConfusion hg'
      | some found =>
        obtain ⟨j, ux, ulay'⟩ := found
        rw [hf] at hg'
        obtain ⟨-, hops, hji⟩ := findUnstickAux_sound x i g.ops 0 j ux ulay' hf
        simp only [Nat.sub_zero] at hops
        have hjlen : j < g.ops.length := (List.getElem?_eq_some.mp hops).1
        have havj := hav j hjlen
        rw [unstickAvoids, hops] at havj
        simp only [Bool.and_eq_true, decide_eq_true_eq] at havj
        match lay, ulay' with
        | some l, some ul =>
          dsimp only at hg'
          by_cases hls : l = ul
          · rw [if_pos hls] at hg'
            simp only [Option.some_inj] at hg'
            subst hg'
            refine ⟨j, ux, some ul, hji, hops, ?_⟩
            have hidx : ((g.ops.map
                (fun op => op.replaceUses out ux)).eraseIdx i)[j]? =
                some (ZOp.unstick ux x (some ul)) := by
              rw [List.getElem?_eraseIdx_of_lt _ _ _ hji,
                List.getElem?_map, hops]
              simp only [Option.map_some']
              rw [replaceUses_unstick_fixed ux x (some ul) out ux
                havj.1 havj.2]
            exact List.getElem?_mem hidx
          · rw [if_neg hls] at hg'
            exact Option.noConfusion hg'
        | none, _ =>
          dsimp only at hg'
          exact Option.noConfusion hg'
        | some l, none =>
          dsimp only at hg'
          exact Option.noConfusion hg'
  · intro g i x out l g' hstick hav hg'
    simp only [stickViewUnstickRemoval, hstick] at hg'
    by_cases hn : l = "NCHW"
    · rw [if_pos hn] at hg'
      exact ZPatResult.noConfusion hg'
    · rw [if_neg hn] at hg'
      by_cases hb : x ∈ g.blockArgs
      · rw [if_pos hb] at hg'
        exact ZPatResult.noConfusion hg'
      · rw [if_neg hb] at hg'
        by_cases hnl : g.nonIdentityLayout x = true
        · rw [if_pos hnl] at hg'
          exact ZPatResult.noConfusion hg'
        · rw [if_neg hnl] at hg'
          cases hdef : definingOp g x with
          | none =>
            rw [hdef] at hg'
            exact ZPatResult.noConfusion hg'
          | some found =>
            obtain ⟨jview, opv⟩ := found
            rw [hdef] at hg'
            cases opv with
            | viewLike src vres =>
              dsimp only at hg'
              cases hfind : findUnstickViewAux src jview g.ops 0 with
              | crash =>
                rw [hfind] at hg'
                exact ZPatResult.noConfusion hg'
              | notFound =>
                rw [hfind] at hg'
                exact ZPatResult.noConfusion hg'
              | found j ux ul =>
                rw [hfind] at hg'
                dsimp only at hg'
                obtain ⟨-, hops, hjv, -⟩ :=
                  findUnstickViewAux_sound src jview g.ops 0 j ux ul hfind
                simp only [Nat.sub_zero] at hops
                obtain ⟨-, hviewat, -⟩ :=
                  definingOpAux_sound x g.ops 0 jview
                    (ZOp.viewLike src vres) hdef
                simp only [Nat.sub_zero] at hviewat
                by_cases hsh : ¬ g.staticShape out = true ∨
                    g.shape out ≠ g.shape ux
                · rw [if_pos hsh] at hg'
                  exact ZPatResult.noConfusion hg'
                · rw [if_neg hsh] at hg'
                  simp only [ZPatResult.rewritten.injEq] at hg'
                  have hjlen : j < g.ops.length :=
                    (List.getElem?_eq_some.mp hops).1
                  have havj := hav j hjlen
                  rw [unstickAvoids, hops] at havj
                  simp only [Bool.and_eq_true, decide_eq_true_eq] at havj
                  refine ⟨j, src, ux, some ul, hops, ?_⟩
                  rw [← hg']
                  dsimp only
                  have hij : i ≠ jview := by
                    intro he
                    rw [← he, hstick] at hviewat
                    exact ZOp.noConfusion (Option.some.inj hviewat)
                  have hji' : j ≠ i := by
                    intro he
                    rw [he, hstick] at hops
                    exact ZOp.noConfusion (Option.some.inj hops)
                  -- the matched unstick survives the stick erasure
                  have hmem1 : ZOp.unstick ux src (some ul) ∈
                      g.ops.eraseIdx i :=
                    mem_eraseIdx_of_ne g.ops i _ _ (List.getElem?_mem hops)
                      hstick (fun he => ZOp.noConfusion he)
                  -- and the use replacement leaves it unchanged
                  have hmem2 : ZOp.unstick ux src (some ul) ∈
                      (g.ops.eraseIdx i).map
                        (fun op => op.replaceUses out ux) := by
                    refine List.mem_map.mpr
                      ⟨ZOp.unstick ux src (some ul), hmem1, ?_⟩
                    exact replaceUses_unstick_fixed ux src (some ul) out ux
                      havj.1 havj.2
                  -- and it survives the view erasure, the erased position
                  -- holding the mapped view operation
                  split
                  · rename_i hall
                    refine mem_eraseIdx_of_ne _ _ _
                      ((ZOp.viewLike src vres).replaceUses out ux) hmem2
                      ?_ ?_
                    · by_cases hcase : i < jview
                      · rw [if_pos hcase,
                          List.getElem?_map,
                          List.getElem?_eraseIdx_of_ge _ _ _ (by omega)]
                        have : jview - 1 + 1 = jview := by omega
                        rw [this, hviewat]
                        simp
                      · rw [if_neg hcase,
                          List.getElem?_map,
                          List.getElem?_eraseIdx_of_lt _ _ _ (by omega)]
                        rw [hviewat]
                        simp
                    · simp [ZOp.replaceUses]
                  · exact hmem2
            | unstick a b c =>
              exact ZPatResult.noConfusion hg'
            | stick a b c =>
              exact ZPatResult.noConfusion hg'
            | generic a b =>
              exact ZPatResult.noConfusion hg'

/-- C10 witness: on both concrete graphs the matched unstick survives the
rewrite. -/
theorem c10_matched_unstick_preserved_witness :
    (∃ j ux ulay, j < 1 ∧
      roundTripGraph.ops[j]? = some (ZOp.unstick ux 1 ulay) ∧
      ZOp.unstick ux 1 ulay ∈
        ({ roundTripGraph with
          ops := [ZOp.unstick 0 1 (some "2D"),
            ZOp.generic [0] [3]] } : ZGraph).ops) ∧
    (∃ (j src ux : Nat) (ulay : Option String),
      viewRoundTripGraph.ops[j]? = some (ZOp.unstick ux src ulay) ∧
      ZOp.unstick ux src ulay ∈
        ({ viewRoundTripGraph with
          ops := [ZOp.unstick 0 1 (some "2D"),
            ZOp.generic [0] [4]] } : ZGraph).ops) :=
  ⟨c10_matched_unstick_preserved.1 roundTripGraph 1 1 2 (some "2D")
      { roundTripGraph with
        ops := [ZOp.unstick 0 1 (some "2D"), ZOp.generic [0] [3]] }
      (by rfl) (by decide) (by rfl),
    c10_matched_unstick_preserved.2 viewRoundTripGraph 2 2 3 "3D"
      { viewRoundTripGraph with
        ops := [ZOp.unstick 0 1 (some "2D"), ZOp.generic [0] [4]] }
      (by rfl) (by decide) (by rfl)⟩

/- ===================================================================
   Part 5.  `InsertDeallocForAsyncExecRegionPattern`
   (`ZLowRewrite.cpp` lines 683-764).  The model records the facts the
   C++ match inspects and returns the graph edits the rewrite performs;
   `crash` models an out-of-bounds element access (`getOperands()[0]`,
   `getBodyResults()[0]`, `awaitOutUsers[0]` on empty ranges).
   =================================================================== -/

/-- An operation in the body region of `async.execute`. -/
structure BodyOp where
  opId : Nat
  isAlloc : Bool
  operands : List Nat
deriving DecidableEq, Repr

/-- A user of the awaited value: its op id, program-order position, block,
and enclosing (parent) operation with its position. -/
structure UseInfo where
  opId : Nat
  opPos : Nat
  blockId : Nat
  parentId : Nat
  parentPos : Nat
deriving DecidableEq, Repr

/-- A user of the `async.execute` body result: an `async.await` carries the
users of its own result. -/
inductive ExecUser where
  | await (outUsers : List UseInfo)
  | otherUser
deriving DecidableEq, Repr

/-- Model of the graph neighbourhood the pattern inspects. -/
structure AsyncModel where
  bodyOps : List BodyOp
  bodyBlock : Nat
  outerBlock : Nat
  yieldOperands : List Nat
  bodyResults : List Nat
  allocDef : Nat → Option (Nat × Nat)
  executeResultUsers : List ExecUser
  hasDeallocUser : Nat → Bool

/-- Graph edits performed by the rewrite. -/
inductive AEdit where
  | moveAllocBeforeExecute (allocId : Nat)
  | deallocAfter (buffer : Nat) (pointId pointPos : Nat)
  | deallocInput (buffer : Nat)
deriving DecidableEq, Repr

/-- Pattern outcome: `crash` for an out-of-bounds access, `fail` for
`return failure()` (carrying the edits already performed at that point),
`success` with the performed edits. -/
inductive AsyncResult where
  | crash
  | fail (edits : List AEdit)
  | success (edits : List AEdit)
deriving DecidableEq, Repr

/-- `InsertDeallocForAsyncExecRegionPattern::matchAndRewrite`: collect the
body allocs and the input values allocated outside the region; require at
most one yield operand (indexing operand 0 of an empty yield is
out-of-bounds); the yield operand must be defined by an alloc belonging to
the region, which is moved before the execute op; require at most one body
result (failure at this point leaves the moved alloc in place); collect the
users of the awaited value across all awaits; insert the dealloc for the
yielded buffer after `awaitOutUsers[0]` — after its parent op when its
block differs from the (moved) alloc's block; finally insert deallocs for
inputs that have no dealloc user yet. -/
def insertDeallocForAsyncExecRegion (m : AsyncModel) : AsyncResult :=
  let regionAllocIds := (m.bodyOps.filter (fun op => op.isAlloc)).map
    (fun op => op.opId)
  let inputValues := m.bodyOps.flatMap (fun op =>
    op.operands.filterMap (fun v =>
      match m.allocDef v with
      | some (_, ablk) => if ablk ≠ m.bodyBlock then some v else none
      | none => none))
  if m.yieldOperands.length > 1 then .fail [] else
  match m.yieldOperands[0]? with
  | none => .crash
  | some yOperand =>
    match m.allocDef yOperand with
    | none => .fail []
    | some (aid, _) =>
      if aid ∉ regionAllocIds then .fail [] else
      let edits0 := [AEdit.moveAllocBeforeExecute aid]
      if m.bodyResults.length > 1 then .fail edits0 else
      match m.bodyResults[0]? with
      | none => .crash
      | some _ =>
        let awaitOutUsers := m.executeResultUsers.flatMap (fun u =>
          match u with
          | ExecUser.await us => us
          | ExecUser.otherUser => [])
        match awaitOutUsers[0]? with
        | none => .crash
        | some u0 =>
          let pt := (if m.outerBlock ≠ u0.blockId
            then (u0.parentId, u0.parentPos) else (u0.opId, u0.opPos))
          let edits1 := edits0 ++ [AEdit.deallocAfter yOperand pt.1 pt.2]
          let inputEdits := inputValues.foldl (fun acc v =>
            if m.hasDeallocUser v ∨ AEdit.deallocInput v ∈ acc then acc
            else acc ++ [AEdit.deallocInput v]) []
          .success (edits1 ++ inputEdits)

/-- Model with an `async.yield` that has no operands: the code indexes
operand 0 of the empty range. -/
def asyncZeroYieldModel : AsyncModel where
  bodyOps := [⟨10, true, []⟩]
  bodyBlock := 1
  outerBlock := 0
  yieldOperands := []
  bodyResults := []
  allocDef _ := none
  executeResultUsers := []
  hasDeallocUser _ := false

/-- Model with a two-operand `async.yield`: the code declines cleanly. -/
def asyncTwoYieldModel : AsyncModel where
  bodyOps := [⟨10, true, []⟩]
  bodyBlock := 1
  outerBlock := 0
  yieldOperands := [5, 6]
  bodyResults := [7, 8]
  allocDef _ := none
  executeResultUsers := []
  hasDeallocUser _ := false

/-- C4: with more than one yield operand the pattern returns failure with
no edits, but with zero yield operands it does not decline — it performs an
out-of-bounds operand access (`yieldOp.getOperands()[0]` guarded only by
`size() > 1`), modelled as `crash`. -/
theorem c4_zero_yield_not_clean_failure :
    insertDeallocForAsyncExecRegion asyncZeroYieldModel =
      AsyncResult.crash ∧
    insertDeallocForAsyncExecRegion asyncTwoYieldModel =
      AsyncResult.fail [] := by
  constructor
  · rfl
  · rfl

/-- Model of a successful run in which the awaited value has two consumers
in the same block, op 20 at position 5 and op 21 at position 6, with the
use list returning op 20 first. -/
def asyncTwoUseModel : AsyncModel where
  bodyOps := [⟨3, true, []⟩]
  bodyBlock := 1
  outerBlock := 0
  yieldOperands := [7]
  bodyResults := [8]
  allocDef v := if v = 7 then some (3, 1) else none
  executeResultUsers := [ExecUser.await [⟨20, 5, 0, 2, 4⟩, ⟨21, 6, 0, 2, 4⟩]]
  hasDeallocUser _ := false

/-- C3: the pattern succeeds on the two-consumer model and inserts the
deallocation right after the first user in the use list (op 20, position
5), even though op 21 at position 6 also reads the awaited value — the
dealloc precedes the last consumer in program order. -/
theorem c3_dealloc_before_last_consumer :
    insertDeallocForAsyncExecRegion asyncTwoUseModel =
      AsyncResult.success
        [AEdit.moveAllocBeforeExecute 3, AEdit.deallocAfter 7 20 5] ∧
    asyncTwoUseModel.executeResultUsers =
      [ExecUser.await [⟨20, 5, 0, 2, 4⟩, ⟨21, 6, 0, 2, 4⟩]] ∧
    (5 : Nat) < 6 := by
  refine ⟨by rfl, by rfl, by norm_num⟩
